import Mathlib

/-!
Verification of the TypedClass runtime field-validation engine
(source file: src/TypedClass/index.py).

The development is a shallow embedding of the Python source:

* `Ty` and `Val`/`ValMap` model the Python types and values handled by the
  engine (ints, bools, strings, dicts with insertion order, shaped objects,
  None).
* `TypeDef` models the FieldSpec entity, `TypeDef.init` its validating
  constructor (`TypeDef.__init__`, lines 50-123).
* `setattr1` models `TypedClass.__setattr__` (lines 176-267); the
  `typeof(value)` conversion call is inlined exactly as in the source,
  and for a class-typed field it recurses into the construction of the
  nested JsonVariant object.
* `baseInit` models `TypedClass.__init__` (lines 147-174), `strictInit`
  and `jsonInit` the rewriting constructors of `TypedClassStrict`
  (lines 329-357) and `TypedClassJson` (lines 367-391).
* `delattr1` models `TypedClass.__delattr__` (lines 269-276), `attrsView`
  the `attributes` property (lines 278-287) and `dictView` the `dict`
  property (lines 304-319).
-/

/-- Python types that occur as isinstance targets in the embedded fragment.
`tClass` names a shape-aware (TypedClass-derived) declared record type. -/
inductive Ty where
  | tInt
  | tBool
  | tStr
  | tDict
  | tClass (name : String)
deriving DecidableEq

mutual
/-- Embedded Python values: the data a field can hold. -/
inductive Val where
  | vInt (n : Int)
  | vBool (b : Bool)
  | vStr (s : String)
  | vNone
  | vDict (entries : ValMap)
  | vObj (cls : String) (store : ValMap)

/-- An insertion-ordered string-keyed mapping of values (a Python dict,
also used for the per-instance value store `self.__dict__`). -/
inductive ValMap where
  | nil
  | cons (key : String) (value : Val) (rest : ValMap)
end

deriving instance DecidableEq for Val, ValMap

/-- Lookup in a `ValMap` (first matching key). -/
def ValMap.lookup : ValMap → String → Option Val
  | .nil, _ => none
  | .cons k v rest, key => if k = key then some v else rest.lookup key

/-- Key membership test for a `ValMap`. -/
def ValMap.hasKey (m : ValMap) (k : String) : Bool :=
  (m.lookup k).isSome

/-- Update a `ValMap` at a key, Python-dict style: an existing key keeps its
position and gets the new value, a fresh key is appended at the end. -/
def ValMap.set : ValMap → String → Val → ValMap
  | .nil, k, v => .cons k v .nil
  | .cons k2 v2 rest, k, v =>
      if k2 = k then .cons k2 v rest else .cons k2 v2 (rest.set k v)

/-- Remove a key from a `ValMap` (Python `del d[k]`). -/
def ValMap.erase : ValMap → String → ValMap
  | .nil, _ => .nil
  | .cons k2 v2 rest, k =>
      if k2 = k then rest.erase k else .cons k2 v2 (rest.erase k)

/-- The list of keys of a `ValMap`, in insertion order. -/
def ValMap.keyList : ValMap → List String
  | .nil => []
  | .cons k _ rest => k :: rest.keyList

/-- Lookup in a plain association list (used for spec maps and the map of
class-level declared default values). -/
def alistLookup {α : Type} : List (String × α) → String → Option α
  | [], _ => none
  | (k, v) :: rest, key => if k = key then some v else alistLookup rest key

/-- Python `isinstance(v, t)` for a single type.  As in CPython, `bool` is a
subclass of `int`, so a boolean is an instance of `int` as well. -/
def isinstance1 : Val → Ty → Bool
  | .vInt _, .tInt => true
  | .vBool _, .tInt => true
  | .vBool _, .tBool => true
  | .vStr _, .tStr => true
  | .vDict _, .tDict => true
  | .vObj c _, .tClass c2 => c = c2
  | _, _ => false

/-- Python `isinstance(v, typeof)` where `typeof` is a single type or a tuple
of alternative types (encoded uniformly as a list). -/
def isinstance (v : Val) (typeof : List Ty) : Bool :=
  typeof.any (fun t => isinstance1 v t)

/-- A Python callable passed as a `validate_fn`: its declared parameter count
and the function it computes when called with one argument. -/
structure PyFn where
  arity : Nat
  fn : Val → Val

/-- The errors the engine can raise.  `AttributeError` and `TypeError` /
`ValueError` of the source are refined into one constructor per raise site;
`attrLookup` is the implicit `AttributeError` of a failed Python attribute
access (`getattr` / missing instance-dict key / missing attribute on a
type object). -/
inductive Err where
  | typeDefChoiceType
  | typeDefFnArity (n : Nat)
  | unknownAttr (k : String)
  | typeErr (k : String)
  | immutableSet (k : String)
  | immutableDefault (k : String)
  | invalidChoice (k : String)
  | fnNonBool (k : String)
  | fnFailed (k : String)
  | missingRequired (ks : List String)
  | immutableDelete (k : String)
  | attrLookup (k : String)
  | callArity (n : Nat)
  | tupleNotCallable
  | coerceFail
  | classNotFound (c : String)
  | ctorArgNotDict (c : String)
  | danglingRef (i : Nat)
deriving DecidableEq

/-- The FieldSpec data entity (`TypeDef` in the source): one field's
constraint set.  Tri-state flags are `Option Bool` (`none` models the Python
`None` default, meaning unset). -/
structure TypeDef where
  typeof : List Ty
  required : Option Bool
  immutable : Option Bool
  choices : Option (List Val)
  validate_fn : Option PyFn
  convert : Option Bool

/-- The choices validation of `TypeDef.__init__` (source lines 81-92): every
choice must be an instance of `typeof`.  The list-ness check of the source
holds by construction here. -/
def choicesTypeOk (typeof : List Ty) : Option (List Val) → Bool
  | none => true
  | some cs => cs.all (fun c => isinstance c typeof)

/-- `TypeDef.__init__` (source lines 50-123).  The checks that `typeof` is a
valid isinstance target and that the flags are booleans hold by construction
in this embedding; the remaining eager checks are the choices type check and
the `validate_fn` arity check (the source rejects an arity strictly greater
than one, lines 105-109). -/
def TypeDef.init (typeof : List Ty) (required : Option Bool) (immutable : Option Bool)
    (choices : Option (List Val)) (validate_fn : Option PyFn) (convert : Option Bool) :
    Except Err TypeDef :=
  if choicesTypeOk typeof choices then
    match validate_fn with
    | some f =>
        if f.arity > 1 then .error (.typeDefFnArity f.arity)
        else .ok (TypeDef.mk typeof required immutable choices validate_fn convert)
    | none => .ok (TypeDef.mk typeof required immutable choices validate_fn convert)
  else .error .typeDefChoiceType

/-- A declared field in a class body: either a bare type (or tuple of types)
or a full FieldSpec. -/
inductive Annot where
  | bare (typeof : List Ty)
  | spec (td : TypeDef)

/-- A declared record type: its ordered field declarations
(`__annotations__`) and its class-level default values. -/
structure ClassDecl where
  annots : List (String × Annot)
  defaults : List (String × Val)

/-- The universe of declared shape-aware record types reachable from
class-typed fields (each one a JsonVariant, as in the round-trip scenario of
the source's embedded test). -/
abbrev Env := List (String × ClassDecl)

/-- Declared type of an annotated field. -/
def annotTypeof : Annot → List Ty
  | .bare tys => tys
  | .spec td => td.typeof

/-- Declared `required` flag (a bare type leaves it unset). -/
def annotRequired : Annot → Option Bool
  | .bare _ => none
  | .spec td => td.required

/-- Declared `immutable` flag (a bare type leaves it unset). -/
def annotImmutable : Annot → Option Bool
  | .bare _ => none
  | .spec td => td.immutable

/-- Declared `choices` (a bare type leaves them unset). -/
def annotChoices : Annot → Option (List Val)
  | .bare _ => none
  | .spec td => td.choices

/-- Declared `validate_fn` (a bare type leaves it unset). -/
def annotFn : Annot → Option PyFn
  | .bare _ => none
  | .spec td => td.validate_fn

/-- Declared `convert` flag (a bare type leaves it unset). -/
def annotConvert : Annot → Option Bool
  | .bare _ => none
  | .spec td => td.convert

/-- One step of the defaulting pass of `TypedClassStrict.__init__` (source
lines 330-356): a FieldSpec entry is rebuilt with `required` and `immutable`
defaulted to true when unset, a bare declaration becomes a fully
required+immutable spec.  The rebuild goes through `TypeDef.init` because the
source calls the validating `TypeDef` constructor. -/
def strictRewrite1 : Annot → Except Err Annot
  | .spec td =>
      (TypeDef.init td.typeof (some (td.required.getD true)) (some (td.immutable.getD true))
        td.choices td.validate_fn td.convert).map .spec
  | .bare tys =>
      (TypeDef.init tys (some true) (some true) none none none).map .spec

/-- One step of the defaulting pass of `TypedClassJson.__init__` (source
lines 369-390): `convert` is defaulted to true when unset; a bare declaration
becomes a required+immutable+convert spec. -/
def jsonRewrite1 : Annot → Except Err Annot
  | .spec td =>
      (TypeDef.init td.typeof td.required td.immutable
        td.choices td.validate_fn (some (td.convert.getD true))).map .spec
  | .bare tys =>
      (TypeDef.init tys (some true) (some true) none none (some true)).map .spec

/-- Apply a per-entry rewriting step to every entry of a spec map, in
declaration order (the `for key in self.annotations` loops of the variant
constructors). -/
def rewriteAll (f : Annot → Except Err Annot) :
    List (String × Annot) → Except Err (List (String × Annot))
  | [] => .ok []
  | (k, a) :: rest => do
      let a2 ← f a
      let rest2 ← rewriteAll f rest
      .ok ((k, a2) :: rest2)

/-- The effective spec map a JsonVariant construction runs under: first the
json pass of `TypedClassJson.__init__`, then (via `super().__init__`) the
strict pass of `TypedClassStrict.__init__`. -/
def jsonEffSpec (annots : List (String × Annot)) : Except Err (List (String × Annot)) := do
  let a1 ← rewriteAll jsonRewrite1 annots
  rewriteAll strictRewrite1 a1

mutual
/-- Textual rendering used by the embedded `str` conversion, approximating
Python `str`/`repr` output for composite values (quoting of nested strings
is omitted; no proved statement depends on this text). -/
def pyStr : Val → String
  | .vInt n => toString n
  | .vBool b => if b then "True" else "False"
  | .vStr s => s
  | .vNone => "None"
  | .vDict m => "\x7b" ++ pyStrEntries m ++ "\x7d"
  | .vObj c _ => c ++ " object"
termination_by structural v => v

/-- Entry list rendering for `pyStr`. -/
def pyStrEntries : ValMap → String
  | .nil => ""
  | .cons k v .nil => k ++ ": " ++ pyStr v
  | .cons k v (.cons k2 v2 rest) =>
      k ++ ": " ++ pyStr v ++ ", " ++ pyStrEntries (.cons k2 v2 rest)
termination_by structural m => m
end

/-- Python truthiness, used by the `bool` constructor. -/
def pyTruthy : Val → Bool
  | .vInt n => n != 0
  | .vBool b => b
  | .vStr s => s != ""
  | .vNone => false
  | .vDict .nil => false
  | .vDict (.cons _ _ _) => true
  | .vObj _ _ => true

/-- Calling a built-in leaf type constructor on a value, the
`annotation_value.typeof(value)` call of source line 195 for non-class
types: `int`, `bool`, `str`, `dict` applied to a raw value. -/
def coerceLeaf : Ty → Val → Except Err Val
  | .tInt, .vInt n => .ok (.vInt n)
  | .tInt, .vBool b => .ok (.vInt (if b then 1 else 0))
  | .tInt, .vStr s =>
      match s.toInt? with
      | some n => .ok (.vInt n)
      | none => .error .coerceFail
  | .tInt, _ => .error .coerceFail
  | .tBool, v => .ok (.vBool (pyTruthy v))
  | .tStr, v => .ok (.vStr (pyStr v))
  | .tDict, .vDict m => .ok (.vDict m)
  | .tDict, _ => .error .coerceFail
  | .tClass c, _ => .error (.classNotFound c)

/-- Calling a `PyFn` with a single argument (the `validate_fn(value)` call of
source line 240): a callable whose declared parameter count is not one
raises at call time. -/
def pyCall1 (f : PyFn) (v : Val) : Except Err Val :=
  if f.arity = 1 then .ok (f.fn v) else .error (.callArity f.arity)

/-- Presence of a class-level declared default for a field. -/
def hasDefault (defaults : List (String × Val)) (k : String) : Bool :=
  (alistLookup defaults k).isSome

/-- Python `hasattr(self, k)` for an annotated field: present in the instance
value store, or backed by a class-level default. -/
def hasAttr (defaults : List (String × Val)) (st : ValMap) (k : String) : Bool :=
  st.hasKey k || hasDefault defaults k

/-- The `__attributes_with_defaults_keys` list computed at the start of
`TypedClass.__init__` (source lines 148-152): the annotated fields that
already answer `hasattr` before any constructor argument is assigned,
i.e. exactly the fields with a class-level default. -/
def defaultKeys (spec : List (String × Annot)) (defaults : List (String × Val)) :
    List String :=
  (spec.map Prod.fst).filter (fun k => hasDefault defaults k)

/-- The scan of source lines 160-167: every spec entry that is a FieldSpec,
is flagged required, and has no value (neither stored nor defaulted), in
declaration order. -/
def requiredMissing (spec : List (String × Annot)) (defaults : List (String × Val))
    (st : ValMap) : List String :=
  match spec with
  | [] => []
  | (k, .spec td) :: rest =>
      if td.required.getD false && !(hasAttr defaults st k) then
        k :: requiredMissing rest defaults st
      else requiredMissing rest defaults st
  | (_, .bare _) :: rest => requiredMissing rest defaults st

/-- The tail of the `__setattr__` pipeline after the type and immutability
checks: the choices check, the `validate_fn` check (a non-boolean return is
its own error, source lines 241-245), and the final commit
`super().__setattr__(key, value)`. -/
def setattrTail (k : String) (td : TypeDef) (v2 : Val) (st : ValMap) :
    Except Err ValMap :=
  match td.choices with
  | some cs =>
      if cs.contains v2 then
        match td.validate_fn with
        | some f =>
            match pyCall1 f v2 with
            | .error e => .error e
            | .ok (.vBool true) => .ok (st.set k v2)
            | .ok (.vBool false) => .error (.fnFailed k)
            | .ok _ => .error (.fnNonBool k)
        | none => .ok (st.set k v2)
      else .error (.invalidChoice k)
  | none =>
      match td.validate_fn with
      | some f =>
          match pyCall1 f v2 with
          | .error e => .error e
          | .ok (.vBool true) => .ok (st.set k v2)
          | .ok (.vBool false) => .error (.fnFailed k)
          | .ok _ => .error (.fnNonBool k)
      | none => .ok (st.set k v2)

/-- The FieldSpec branch of `__setattr__` after conversion (source lines
197-250): type check, then the immutability check with its class-level
default handling (the `try getattr / __attributes_with_defaults_keys` block,
lines 207-229), then `setattrTail`.  `initKeys` is `some ks` while the
constructor marker attribute exists (with `ks` its recorded list) and `none`
afterwards. -/
def setattrChecks (defaults : List (String × Val)) (initKeys : Option (List String))
    (k : String) (td : TypeDef) (v2 : Val) (st : ValMap) : Except Err ValMap :=
  if isinstance v2 td.typeof then
    if td.immutable.getD false then
      if st.hasKey k then .error (.immutableSet k)
      else
        if hasDefault defaults k then
          match initKeys with
          | some ks =>
              if ks.contains k then setattrTail k td v2 st
              else .error (.immutableDefault k)
          | none => .error (.immutableDefault k)
        else setattrTail k td v2 st
    else setattrTail k td v2 st
  else .error (.typeErr k)

mutual
/-- `TypedClass.__setattr__` (source lines 176-267) for an assignment of `v`
to field `k` with value store `st`.  The `annotation_value.typeof(value)`
conversion call of line 195 is inlined: for a single class type it runs the
full JsonVariant construction of the named class on the raw mapping (the
spec rewriting passes, the assignment loop, the required-fields scan); for a
single leaf type it is the leaf constructor; calling a tuple of types
raises. -/
def setattr1 (env : Env) (spec : List (String × Annot)) (defaults : List (String × Val))
    (initKeys : Option (List String)) (k : String) (v : Val) (st : ValMap) :
    Except Err ValMap :=
  match alistLookup spec k with
  | none => .error (.unknownAttr k)
  | some (.bare tys) =>
      if isinstance v tys then .ok (st.set k v) else .error (.typeErr k)
  | some (.spec td) =>
      match
        ((if td.convert.getD false then
          match td.typeof with
          | [Ty.tClass c] =>
              (match alistLookup env c with
               | some decl =>
                   (match v with
                    | .vDict m =>
                        (match jsonEffSpec decl.annots with
                         | .error e => .error e
                         | .ok spec2 =>
                             match assignAll env spec2 decl.defaults
                                 (some (defaultKeys spec2 decl.defaults)) m ValMap.nil with
                             | .error e => .error e
                             | .ok st2 =>
                                 match requiredMissing spec2 decl.defaults st2 with
                                 | [] => .ok (Val.vObj c st2)
                                 | k1 :: krest => .error (.missingRequired (k1 :: krest)))
                    | _ => .error (.ctorArgNotDict c))
               | none => .error (.classNotFound c))
          | [t] => coerceLeaf t v
          | _ => .error .tupleNotCallable
        else .ok v) : Except Err Val) with
      | .error e => .error e
      | .ok v2 => setattrChecks defaults initKeys k td v2 st
termination_by structural v

/-- The keyword-argument assignment loop of `TypedClass.__init__` (source
lines 154-156): arguments are assigned in order through `setattr1`, an entry
whose value is `None` is silently skipped, and the first failing assignment
aborts the construction. -/
def assignAll (env : Env) (spec : List (String × Annot)) (defaults : List (String × Val))
    (initKeys : Option (List String)) (kwargs : ValMap) (st : ValMap) :
    Except Err ValMap :=
  match kwargs with
  | .nil => .ok st
  | .cons k v rest =>
      if v = Val.vNone then assignAll env spec defaults initKeys rest st
      else
        match setattr1 env spec defaults initKeys k v st with
        | .error e => .error e
        | .ok st2 => assignAll env spec defaults initKeys rest st2
termination_by structural kwargs
end

/-- `TypedClass.__init__` (source lines 147-174): record the fields with
defaults, assign the keyword arguments, then scan for required fields with
no value and raise one aggregated error listing them all. -/
def baseInit (env : Env) (spec : List (String × Annot)) (defaults : List (String × Val))
    (kwargs : ValMap) : Except Err ValMap :=
  match assignAll env spec defaults (some (defaultKeys spec defaults)) kwargs ValMap.nil with
  | .error e => .error e
  | .ok st =>
      match requiredMissing spec defaults st with
      | [] => .ok st
      | k :: ks => .error (.missingRequired (k :: ks))

/-- `TypedClassStrict.__init__` (source lines 329-357): rewrite every spec
entry with the strict defaults, then delegate to the base constructor. -/
def strictInit (env : Env) (decl : ClassDecl) (kwargs : ValMap) : Except Err ValMap :=
  match rewriteAll strictRewrite1 decl.annots with
  | .error e => .error e
  | .ok spec2 => baseInit env spec2 decl.defaults kwargs

/-- `TypedClassJson.__init__` (source lines 367-391): take the raw mapping,
apply the json defaulting pass, then the strict pass, then the base
constructor with the mapping entries as the keyword arguments. -/
def jsonInit (env : Env) (decl : ClassDecl) (m : ValMap) : Except Err ValMap :=
  match jsonEffSpec decl.annots with
  | .error e => .error e
  | .ok spec2 => baseInit env spec2 decl.defaults m

/-- `object.__delattr__` on the instance dict: removing a missing key raises
`AttributeError` (a class-level default alone is not deletable through the
instance). -/
def superDelattr (k : String) (st : ValMap) : Except Err ValMap :=
  if st.hasKey k then .ok (st.erase k) else .error (.attrLookup k)

/-- `TypedClass.__delattr__` (source lines 269-276).  The source reads
`self.annotations[key].immutable` without the `isinstance(..., TypeDef)`
guard used everywhere else: on a bare type annotation the attribute access
itself raises `AttributeError` (a Python type object has no `immutable`
attribute), which this embedding renders as `attrLookup "immutable"`. -/
def delattr1 (spec : List (String × Annot)) (k : String) (st : ValMap) :
    Except Err ValMap :=
  match alistLookup spec k with
  | some (.spec td) =>
      if td.immutable.getD false then .error (.immutableDelete k)
      else superDelattr k st
  | some (.bare _) => .error (.attrLookup "immutable")
  | none => superDelattr k st

/-- Python `getattr(self, k)` as an option: the instance store first, then
the class-level default. -/
def getattrOpt (defaults : List (String × Val)) (st : ValMap) (k : String) : Option Val :=
  match st.lookup k with
  | some v => some v
  | none => alistLookup defaults k

/-- The `attributes` property (source lines 278-287): every annotated field
currently answering `getattr`, with its current value, in declaration
order. -/
def attrsView (spec : List (String × Annot)) (defaults : List (String × Val))
    (st : ValMap) : ValMap :=
  match spec with
  | [] => .nil
  | (k, _) :: rest =>
      match getattrOpt defaults st k with
      | some v => .cons k v (attrsView rest defaults st)
      | none => attrsView rest defaults st

/-- One entry of the `dict` property: a value that is itself a shaped object
is replaced by its own `attributes` mapping (source lines 315-318). -/
def flattenEntryVal (env : Env) : Val → Val
  | .vObj c st2 =>
      match alistLookup env c with
      | some decl => .vDict (attrsView decl.annots decl.defaults st2)
      | none => .vObj c st2
  | v => v

/-- Map `flattenEntryVal` over a mapping. -/
def mapFlatten (env : Env) : ValMap → ValMap
  | .nil => .nil
  | .cons k v rest => .cons k (flattenEntryVal env v) (mapFlatten env rest)

/-- The `dict` property (source lines 304-319): the `attributes` mapping with
shaped-object values replaced by their own `attributes` mappings (one level
of flattening). -/
def dictView (env : Env) (spec : List (String × Annot)) (defaults : List (String × Val))
    (st : ValMap) : ValMap :=
  mapFlatten env (attrsView spec defaults st)

/-- A post-construction mutation of the object: a field assignment or a
field deletion. -/
inductive FieldOp where
  | setF (k : String) (v : Val)
  | delF (k : String)

/-- Run one post-construction operation with exception semantics: a raised
error aborts the operation and leaves the value store unchanged. -/
def runOp (env : Env) (spec : List (String × Annot)) (defaults : List (String × Val))
    (st : ValMap) : FieldOp → ValMap
  | .setF k v =>
      match setattr1 env spec defaults none k v st with
      | .ok st2 => st2
      | .error _ => st
  | .delF k =>
      match delattr1 spec k st with
      | .ok st2 => st2
      | .error _ => st

/-- Run a sequence of post-construction operations. -/
def runOps (env : Env) (spec : List (String × Annot)) (defaults : List (String × Val))
    (st : ValMap) : List FieldOp → ValMap
  | [] => st
  | op :: rest => runOps env spec defaults (runOp env spec defaults st op) rest

deriving instance DecidableEq for Except

theorem exbind_ok {A B : Type} (a : A) (f : A → Except Err B) :
    (Except.ok a : Except Err A) >>= f = f a := rfl

theorem exbind_error {A B : Type} (e : Err) (f : A → Except Err B) :
    (Except.error e : Except Err A) >>= f = Except.error e := rfl

/-- The conversion step of the pipeline, the `value = annotation_value.typeof(value)`
call of source line 195, extracted from `setattr1` as a standalone function
(its body is the inlined conversion of `setattr1`, verbatim). -/
def convertStep (env : Env) (td : TypeDef) (v : Val) : Except Err Val :=
  if td.convert.getD false then
    match td.typeof with
    | [Ty.tClass c] =>
        (match alistLookup env c with
         | some decl =>
             (match v with
              | .vDict m =>
                  (match jsonEffSpec decl.annots with
                   | .error e => .error e
                   | .ok spec2 =>
                       match assignAll env spec2 decl.defaults
                           (some (defaultKeys spec2 decl.defaults)) m ValMap.nil with
                       | .error e => .error e
                       | .ok st2 =>
                           match requiredMissing spec2 decl.defaults st2 with
                           | [] => .ok (Val.vObj c st2)
                           | k1 :: krest => .error (.missingRequired (k1 :: krest)))
              | _ => .error (.ctorArgNotDict c))
         | none => .error (.classNotFound c))
    | [t] => coerceLeaf t v
    | _ => .error .tupleNotCallable
  else .ok v

/-- The type-compatibility check of the pipeline (source lines 197-205), as
an isolated step. -/
def typeCheckStep (k : String) (td : TypeDef) (v2 : Val) : Except Err Unit :=
  if isinstance v2 td.typeof then .ok () else .error (.typeErr k)

/-- The immutability check of the pipeline (source lines 207-229), as an
isolated step. -/
def immutStep (defaults : List (String × Val)) (initKeys : Option (List String))
    (k : String) (td : TypeDef) (st : ValMap) : Except Err Unit :=
  if td.immutable.getD false then
    if st.hasKey k then .error (.immutableSet k)
    else
      if hasDefault defaults k then
        match initKeys with
        | some ks => if ks.contains k then .ok () else .error (.immutableDefault k)
        | none => .error (.immutableDefault k)
      else .ok ()
  else .ok ()

/-- The choices check of the pipeline (source lines 231-237), as an isolated
step. -/
def choicesStep (k : String) (td : TypeDef) (v2 : Val) : Except Err Unit :=
  match td.choices with
  | some cs => if cs.contains v2 then .ok () else .error (.invalidChoice k)
  | none => .ok ()

/-- The predicate check of the pipeline (source lines 239-250), as an
isolated step. -/
def fnStep (k : String) (td : TypeDef) (v2 : Val) : Except Err Unit :=
  match td.validate_fn with
  | some f =>
      match pyCall1 f v2 with
      | .error e => .error e
      | .ok (.vBool true) => .ok ()
      | .ok (.vBool false) => .error (.fnFailed k)
      | .ok _ => .error (.fnNonBool k)
  | none => .ok ()

theorem setattr1_unfold (env : Env) (spec : List (String × Annot))
    (defaults : List (String × Val)) (initKeys : Option (List String))
    (k : String) (v : Val) (st : ValMap) :
    setattr1 env spec defaults initKeys k v st =
      match alistLookup spec k with
      | none => .error (.unknownAttr k)
      | some (.bare tys) =>
          if isinstance v tys then .ok (st.set k v) else .error (.typeErr k)
      | some (.spec td) =>
          match convertStep env td v with
          | .error e => .error e
          | .ok v2 => setattrChecks defaults initKeys k td v2 st := by
  rw [setattr1]
  rfl

theorem assignAll_unfold (env : Env) (spec : List (String × Annot))
    (defaults : List (String × Val)) (initKeys : Option (List String))
    (kwargs : ValMap) (st : ValMap) :
    assignAll env spec defaults initKeys kwargs st =
      match kwargs with
      | .nil => .ok st
      | .cons k v rest =>
          if v = Val.vNone then assignAll env spec defaults initKeys rest st
          else
            match setattr1 env spec defaults initKeys k v st with
            | .error e => .error e
            | .ok st2 => assignAll env spec defaults initKeys rest st2 := by
  rw [assignAll.eq_def]

theorem setattrTail_eq_steps (k : String) (td : TypeDef) (v2 : Val) (st : ValMap) :
    setattrTail k td v2 st =
      (do
        let _ ← choicesStep k td v2
        let _ ← fnStep k td v2
        Except.ok (st.set k v2)) := by
  obtain ⟨tys, req, imm, cho, vfn, conv⟩ := td
  rcases cho with _ | cs <;> rcases vfn with _ | f <;>
    dsimp only [setattrTail, choicesStep, fnStep]
  · rfl
  · rcases hc : pyCall1 f v2 with e | r
    · rfl
    · rcases r with n | b | s2 | _ | m | ⟨c, st3⟩
      · rfl
      · rcases b <;> rfl
      · rfl
      · rfl
      · rfl
      · rfl
  · by_cases hm : cs.contains v2 = true
    · rw [if_pos hm, if_pos hm]
      rfl
    · rw [if_neg hm, if_neg hm]
      rfl
  · by_cases hm : cs.contains v2 = true
    · rw [if_pos hm, if_pos hm]
      rw [exbind_ok]
      rcases hc : pyCall1 f v2 with e | r
      · rfl
      · rcases r with n | b | s2 | _ | m | ⟨c, st3⟩
        · rfl
        · rcases b <;> rfl
        · rfl
        · rfl
        · rfl
        · rfl
    · rw [if_neg hm, if_neg hm]
      rfl

theorem setattrChecks_eq_steps (defaults : List (String × Val))
    (initKeys : Option (List String)) (k : String) (td : TypeDef) (v2 : Val) (st : ValMap) :
    setattrChecks defaults initKeys k td v2 st =
      (do
        let _ ← typeCheckStep k td v2
        let _ ← immutStep defaults initKeys k td st
        let _ ← choicesStep k td v2
        let _ ← fnStep k td v2
        Except.ok (st.set k v2)) := by
  unfold setattrChecks typeCheckStep immutStep
  by_cases hty : isinstance v2 td.typeof = true
  · rw [if_pos hty, if_pos hty, exbind_ok]
    by_cases him : td.immutable.getD false = true
    · rw [if_pos him, if_pos him]
      by_cases hkk : st.hasKey k = true
      · rw [if_pos hkk, if_pos hkk]
        rfl
      · rw [if_neg hkk, if_neg hkk]
        by_cases hd : hasDefault defaults k = true
        · rw [if_pos hd, if_pos hd]
          rcases initKeys with _ | ks
          · rfl
          · dsimp only
            by_cases hks : ks.contains k = true
            · rw [if_pos hks, if_pos hks, exbind_ok]
              exact setattrTail_eq_steps k td v2 st
            · rw [if_neg hks, if_neg hks]
              rfl
        · rw [if_neg hd, if_neg hd, exbind_ok]
          exact setattrTail_eq_steps k td v2 st
    · rw [if_neg him, if_neg him, exbind_ok]
      exact setattrTail_eq_steps k td v2 st
  · rw [if_neg hty, if_neg hty]
    rfl

@[induction_eliminator]
theorem ValMap.inductionOn {motive : ValMap → Prop} (hnil : motive .nil)
    (hcons : ∀ (k : String) (v : Val) (rest : ValMap), motive rest → motive (.cons k v rest)) :
    ∀ m, motive m
  | .nil => hnil
  | .cons k v rest => hcons k v rest (ValMap.inductionOn hnil hcons rest)
termination_by structural m => m

theorem ValMap.lookup_set_self (m : ValMap) (k : String) (v : Val) :
    (m.set k v).lookup k = some v := by
  induction m with
  | hnil => simp [ValMap.set, ValMap.lookup]
  | hcons k2 v2 rest ih =>
      by_cases h : k2 = k
      · simp [ValMap.set, ValMap.lookup, h]
      · simp [ValMap.set, ValMap.lookup, h, ih]

theorem ValMap.lookup_set_ne (m : ValMap) (k k2 : String) (v : Val) (h : k ≠ k2) :
    (m.set k v).lookup k2 = m.lookup k2 := by
  induction m with
  | hnil => simp [ValMap.set, ValMap.lookup, h]
  | hcons k3 v3 rest ih =>
      by_cases h3 : k3 = k
      · subst h3
        simp [ValMap.set, ValMap.lookup, h]
      · simp [ValMap.set, ValMap.lookup, h3, ih]

theorem ValMap.hasKey_set (m : ValMap) (k k2 : String) (v : Val) :
    (m.set k v).hasKey k2 = (m.hasKey k2 || k = k2) := by
  by_cases h : k = k2
  · subst h
    simp [ValMap.hasKey, ValMap.lookup_set_self]
  · simp [ValMap.hasKey, ValMap.lookup_set_ne m k k2 v h, h]

theorem ValMap.lookup_erase_ne (m : ValMap) (k k2 : String) (h : k ≠ k2) :
    (m.erase k).lookup k2 = m.lookup k2 := by
  induction m with
  | hnil => simp [ValMap.erase]
  | hcons k3 v3 rest ih =>
      by_cases h3 : k3 = k
      · subst h3
        simp [ValMap.erase, ValMap.lookup, h, ih]
      · simp [ValMap.erase, ValMap.lookup, h3, ih]

theorem alistLookup_mem {α : Type} (l : List (String × α)) (k : String) (a : α)
    (h : alistLookup l k = some a) : (k, a) ∈ l := by
  induction l with
  | nil => simp [alistLookup] at h
  | cons p rest ih =>
      obtain ⟨k2, a2⟩ := p
      by_cases h2 : k2 = k
      · subst h2
        simp [alistLookup] at h
        subst h
        exact List.mem_cons_self _ _
      · simp only [alistLookup, if_neg h2] at h
        exact List.mem_cons_of_mem _ (ih h)

theorem alistLookup_of_mem {α : Type} (l : List (String × α)) (k : String) (a : α)
    (hnd : (l.map Prod.fst).Nodup) (h : (k, a) ∈ l) : alistLookup l k = some a := by
  induction l with
  | nil => simp at h
  | cons p rest ih =>
      obtain ⟨k2, a2⟩ := p
      simp only [List.map_cons, List.nodup_cons] at hnd
      rcases List.mem_cons.mp h with h1 | h1
      · simp only [Prod.mk.injEq] at h1
        obtain ⟨hk, ha⟩ := h1
        subst hk
        subst ha
        simp [alistLookup]
      · have hk2 : k2 ≠ k := by
          intro he
          subst he
          exact hnd.1 (List.mem_map_of_mem Prod.fst h1)
        simp only [alistLookup, if_neg hk2]
        exact ih hnd.2 h1

theorem exbind_ok_inv {A B : Type} {x : Except Err A} {f : A → Except Err B} {b : B}
    (h : x >>= f = .ok b) : ∃ a, x = .ok a ∧ f a = .ok b := by
  rcases x with e | a
  · rw [exbind_error] at h
    exact absurd h (by simp)
  · rw [exbind_ok] at h
    exact ⟨a, rfl, h⟩

theorem setattr1_ok_steps (env : Env) (spec : List (String × Annot))
    (defaults : List (String × Val)) (initKeys : Option (List String))
    (k : String) (v : Val) (st : ValMap) (st2 : ValMap) (td : TypeDef)
    (hk : alistLookup spec k = some (.spec td))
    (h : setattr1 env spec defaults initKeys k v st = .ok st2) :
    ∃ v2, convertStep env td v = .ok v2 ∧
      typeCheckStep k td v2 = .ok () ∧
      immutStep defaults initKeys k td st = .ok () ∧
      choicesStep k td v2 = .ok () ∧
      fnStep k td v2 = .ok () ∧
      st2 = st.set k v2 := by
  rw [setattr1_unfold] at h
  split at h
  · exact absurd h (by simp)
  · rename_i tys heq
    rw [hk] at heq
    exact absurd heq (by simp)
  · rename_i td2 heq
    rw [hk] at heq
    injection heq with heq2
    injection heq2 with heq3
    subst heq3
    split at h
    · exact absurd h (by simp)
    · rename_i v2 hc
      rw [setattrChecks_eq_steps] at h
      obtain ⟨u1, h1, h⟩ := exbind_ok_inv h
      obtain ⟨u2, h2, h⟩ := exbind_ok_inv h
      obtain ⟨u3, h3, h⟩ := exbind_ok_inv h
      obtain ⟨u4, h4, h⟩ := exbind_ok_inv h
      injection h with h5
      exact ⟨v2, hc, h1, h2, h3, h4, h5.symm⟩

theorem setattr1_ok_set (env : Env) (spec : List (String × Annot))
    (defaults : List (String × Val)) (initKeys : Option (List String))
    (k : String) (v : Val) (st : ValMap) (st2 : ValMap)
    (h : setattr1 env spec defaults initKeys k v st = .ok st2) :
    ∃ v2, st2 = st.set k v2 := by
  rw [setattr1_unfold] at h
  split at h
  · exact absurd h (by simp)
  · rename_i tys heq
    split at h
    · injection h with h2
      exact ⟨v, h2.symm⟩
    · exact absurd h (by simp)
  · rename_i td heq
    split at h
    · exact absurd h (by simp)
    · rename_i v2 hc
      rw [setattrChecks_eq_steps] at h
      obtain ⟨u1, h1, h⟩ := exbind_ok_inv h
      obtain ⟨u2, h2, h⟩ := exbind_ok_inv h
      obtain ⟨u3, h3, h⟩ := exbind_ok_inv h
      obtain ⟨u4, h4, h⟩ := exbind_ok_inv h
      injection h with h5
      exact ⟨v2, h5.symm⟩

/-- C1: on every assignment of `v` to a field `k` whose spec is a FieldSpec
`td`, the `__setattr__` pipeline is exactly the ordered composition:
conversion (when `spec.convert` is truthy, `v` is replaced by `typeof(v)`
before any other check), type-compatibility check, immutability check,
choices check, predicate check, and only then the single commit of the
(converted) value into the value store; moreover a successful assignment
returns exactly the old store updated at `k` (so a failing assignment,
which returns the raised error instead, has not touched the store). -/
theorem c1_pipeline_order (env : Env) (spec : List (String × Annot))
    (defaults : List (String × Val)) (initKeys : Option (List String))
    (k : String) (v : Val) (st : ValMap) (td : TypeDef)
    (hk : alistLookup spec k = some (.spec td)) :
    (setattr1 env spec defaults initKeys k v st =
      (do
        let v2 ← convertStep env td v
        let _ ← typeCheckStep k td v2
        let _ ← immutStep defaults initKeys k td st
        let _ ← choicesStep k td v2
        let _ ← fnStep k td v2
        Except.ok (st.set k v2))) ∧
    (∀ st2, setattr1 env spec defaults initKeys k v st = .ok st2 →
      ∃ v2, convertStep env td v = .ok v2 ∧ st2 = st.set k v2) := by
  constructor
  · have hrw : setattr1 env spec defaults initKeys k v st =
        match convertStep env td v with
        | .error e => .error e
        | .ok v2 => setattrChecks defaults initKeys k td v2 st := by
      rw [setattr1_unfold, hk]
    rcases hc : convertStep env td v with e | v2
    · rw [hc] at hrw
      rw [exbind_error]
      exact hrw
    · rw [hc] at hrw
      rw [exbind_ok, hrw]
      exact setattrChecks_eq_steps defaults initKeys k td v2 st
  · intro st2 h2
    obtain ⟨v2, hc, _, _, _, _, hset⟩ :=
      setattr1_ok_steps env spec defaults initKeys k v st st2 td hk h2
    exact ⟨v2, hc, hset⟩

/-- A plain FieldSpec over `int` with every optional constraint unset, used
as concrete test data. -/
def tdIntPlain : TypeDef := TypeDef.mk [Ty.tInt] none none none none none

/-- A one-field spec map using `tdIntPlain`, used as concrete test data. -/
def specIntPlain : List (String × Annot) := [("x", Annot.spec tdIntPlain)]

theorem c1_pipeline_order_witness :
    (alistLookup specIntPlain "x" = some (Annot.spec tdIntPlain)) ∧
    ((setattr1 [] specIntPlain [] none "x" (Val.vInt 5) ValMap.nil =
      (do
        let v2 ← convertStep [] tdIntPlain (Val.vInt 5)
        let _ ← typeCheckStep "x" tdIntPlain v2
        let _ ← immutStep [] none "x" tdIntPlain ValMap.nil
        let _ ← choicesStep "x" tdIntPlain v2
        let _ ← fnStep "x" tdIntPlain v2
        Except.ok (ValMap.nil.set "x" v2))) ∧
    (∀ st2, setattr1 [] specIntPlain [] none "x" (Val.vInt 5) ValMap.nil = .ok st2 →
      ∃ v2, convertStep [] tdIntPlain (Val.vInt 5) = .ok v2 ∧ st2 = ValMap.nil.set "x" v2)) :=
  ⟨rfl, c1_pipeline_order [] specIntPlain [] none "x" (Val.vInt 5) ValMap.nil tdIntPlain rfl⟩

/-- A zero-parameter callable, used to test the `validate_fn` arity check. -/
def arityZeroFn : PyFn := PyFn.mk 0 (fun v => v)

/-- C5 counterexample: the claim says FieldSpec construction fails for every
callable whose parameter count differs from one, but `TypeDef.__init__`
rejects only an arity strictly greater than one (source lines 105-109), so a
zero-parameter callable passes construction without any error. -/
theorem c5_arity_counterexample :
    TypeDef.init [Ty.tInt] none none none (some arityZeroFn) none =
      .ok (TypeDef.mk [Ty.tInt] none none none (some arityZeroFn) none) := rfl

/-- C5 (amended): FieldSpec construction fails on the supplied predicate
exactly when its arity is strictly greater than one; a zero-parameter
callable is accepted at construction time, and a predicate whose arity is
not one instead fails at call time, when the pipeline invokes it with the
single value argument. -/
theorem c5_arity_amended (typeof : List Ty) (required immutable convert : Option Bool)
    (choices : Option (List Val)) (f : PyFn)
    (hch : choicesTypeOk typeof choices = true) :
    (TypeDef.init typeof required immutable choices (some f) convert =
      (if f.arity > 1 then .error (.typeDefFnArity f.arity)
       else .ok (TypeDef.mk typeof required immutable choices (some f) convert))) ∧
    (∀ v, f.arity ≠ 1 → pyCall1 f v = .error (.callArity f.arity)) := by
  constructor
  · unfold TypeDef.init
    rw [if_pos hch]
  · intro v hne
    unfold pyCall1
    rw [if_neg hne]

theorem c5_arity_amended_witness :
    (choicesTypeOk [Ty.tInt] none = true) ∧
    ((TypeDef.init [Ty.tInt] none none none (some arityZeroFn) none =
      (if arityZeroFn.arity > 1 then .error (.typeDefFnArity arityZeroFn.arity)
       else .ok (TypeDef.mk [Ty.tInt] none none none (some arityZeroFn) none))) ∧
    (∀ v, arityZeroFn.arity ≠ 1 →
      pyCall1 arityZeroFn v = .error (.callArity arityZeroFn.arity))) :=
  ⟨rfl, c5_arity_amended [Ty.tInt] none none none none arityZeroFn rfl⟩

/-- C6 (code bug): deleting a field declared as a bare type crashes instead
of deleting.  `TypedClass.__delattr__` (source lines 269-276) reads
`self.annotations[key].immutable` without the `isinstance(..., TypeDef)`
guard used everywhere else the spec map is consulted, so on a bare type
declaration the attribute access itself raises `AttributeError` and the
stored value is not removed; the lazily-normalized equivalent FieldSpec with
all optional constraints unset is deletable, as the spec requires the bare
declaration to be. -/
theorem c6_bare_delete_bug :
    (delattr1 [("y", Annot.bare [Ty.tInt])] "y"
        (ValMap.cons "y" (Val.vInt 1) ValMap.nil) =
      .error (.attrLookup "immutable")) ∧
    (delattr1 [("y", Annot.spec tdIntPlain)] "y"
        (ValMap.cons "y" (Val.vInt 1) ValMap.nil) = .ok ValMap.nil) := ⟨rfl, rfl⟩

theorem delattr1_ok_erase (spec : List (String × Annot)) (k : String)
    (st st2 : ValMap) (h : delattr1 spec k st = .ok st2) : st2 = st.erase k := by
  unfold delattr1 superDelattr at h
  split at h
  · split at h
    · exact absurd h (by simp)
    · split at h
      · injection h with h2
        exact h2.symm
      · exact absurd h (by simp)
  · exact absurd h (by simp)
  · split at h
    · injection h with h2
      exact h2.symm
    · exact absurd h (by simp)

theorem delattr1_immutable_err (spec : List (String × Annot)) (k : String)
    (st : ValMap) (td : TypeDef) (hk : alistLookup spec k = some (.spec td))
    (him : td.immutable.getD false = true) :
    ∀ st2, delattr1 spec k st ≠ .ok st2 := by
  intro st2 h
  unfold delattr1 superDelattr at h
  split at h
  · rename_i td2 heq
    rw [hk] at heq
    injection heq with heq2
    injection heq2 with heq3
    subst heq3
    rw [if_pos him] at h
    exact absurd h (by simp)
  · rename_i heq
    rw [hk] at heq
    exact absurd heq (by simp)
  · rename_i heq
    rw [hk] at heq
    exact absurd heq (by simp)

/-- An immutable required int FieldSpec, used as concrete test data. -/
def tdIntImm : TypeDef := TypeDef.mk [Ty.tInt] (some true) (some true) none none none

/-- A one-field spec map over `tdIntImm`, used as concrete test data. -/
def specIntImm : List (String × Annot) := [("x", Annot.spec tdIntImm)]

/-- C2 counterexample: the claim says an immutable field rejects any further
assignment even when the first value was supplied by a class-level declared
default; but with declared default `x = 22` the constructor keyword argument
`x = 23` is accepted and overrides the default value (the behavior the
embedded self-test of the source exercises with
`type_hint_with_default=24` over the declared default `22`). -/
theorem c2_immutable_counterexample :
    baseInit [] specIntImm [("x", Val.vInt 22)]
        (ValMap.cons "x" (Val.vInt 23) ValMap.nil) =
      .ok (ValMap.cons "x" (Val.vInt 23) ValMap.nil) := rfl

/-- C2 (amended): for a field whose effective spec is immutable, (i) once
the field holds a stored value every further assignment is rejected, even
one writing the identical value; (ii) after construction, a field whose
value is backed only by a class-level declared default also rejects every
assignment (during construction, a constructor keyword argument may
override the declared default once — see the counterexample); (iii) over
any sequence of post-construction assignment and deletion operations, a
stored value of the field never changes and is never removed. -/
theorem c2_immutable_once (env : Env) (spec : List (String × Annot))
    (defaults : List (String × Val)) (k : String) (td : TypeDef)
    (hk : alistLookup spec k = some (.spec td))
    (him : td.immutable.getD false = true) :
    (∀ initKeys v st st2, st.hasKey k = true →
      setattr1 env spec defaults initKeys k v st ≠ .ok st2) ∧
    (∀ v st st2, st.hasKey k = false → hasDefault defaults k = true →
      setattr1 env spec defaults none k v st ≠ .ok st2) ∧
    (∀ st w ops, st.lookup k = some w →
      (runOps env spec defaults st ops).lookup k = some w) := by
  have hset : ∀ initKeys v st st2, st.hasKey k = true →
      setattr1 env spec defaults initKeys k v st ≠ .ok st2 := by
    intro ik v st st2 hkk h
    obtain ⟨v2, _, _, h3, _, _, _⟩ :=
      setattr1_ok_steps env spec defaults ik k v st st2 td hk h
    unfold immutStep at h3
    rw [if_pos him, if_pos hkk] at h3
    exact absurd h3 (by simp)
  refine ⟨hset, ?_, ?_⟩
  · intro v st st2 hkk hd h
    obtain ⟨v2, _, _, h3, _, _, _⟩ :=
      setattr1_ok_steps env spec defaults none k v st st2 td hk h
    unfold immutStep at h3
    rw [if_pos him, if_neg (by simp [hkk]), if_pos hd] at h3
    exact absurd h3 (by simp)
  · have runOps_cons : ∀ st op rest, runOps env spec defaults st (op :: rest) =
        runOps env spec defaults (runOp env spec defaults st op) rest :=
      fun _ _ _ => rfl
    intro st w ops
    induction ops generalizing st with
    | nil => exact fun hw => hw
    | cons op rest ih =>
        intro hw
        rw [runOps_cons]
        rcases op with ⟨k2, v⟩ | k2
        · have hop : runOp env spec defaults st (.setF k2 v) =
              match setattr1 env spec defaults none k2 v st with
              | .ok st2 => st2
              | .error _ => st := rfl
          rw [hop]
          rcases hr : setattr1 env spec defaults none k2 v st with e | st2
          · exact ih st hw
          · obtain ⟨v2, hst2⟩ := setattr1_ok_set env spec defaults none k2 v st st2 hr
            have hk2 : k2 ≠ k := by
              intro he
              subst he
              exact hset none v st st2 (by simp [ValMap.hasKey, hw]) hr
            have hlook : st2.lookup k = some w := by
              rw [hst2, ValMap.lookup_set_ne st k2 k v2 hk2]
              exact hw
            exact ih st2 hlook
        · have hop : runOp env spec defaults st (.delF k2) =
              match delattr1 spec k2 st with
              | .ok st2 => st2
              | .error _ => st := rfl
          rw [hop]
          rcases hr : delattr1 spec k2 st with e | st2
          · exact ih st hw
          · have hst2 := delattr1_ok_erase spec k2 st st2 hr
            have hk2 : k2 ≠ k := by
              intro he
              subst he
              exact delattr1_immutable_err spec k2 st td hk him st2 hr
            have hlook : st2.lookup k = some w := by
              rw [hst2, ValMap.lookup_erase_ne st k2 k hk2]
              exact hw
            exact ih st2 hlook

theorem c2_immutable_once_witness :
    (alistLookup specIntImm "x" = some (Annot.spec tdIntImm)) ∧
    (tdIntImm.immutable.getD false = true) ∧
    (∀ st2, setattr1 [] specIntImm [] none "x" (Val.vInt 23)
        (ValMap.cons "x" (Val.vInt 23) ValMap.nil) ≠ .ok st2) :=
  ⟨rfl, rfl, fun st2 =>
    (c2_immutable_once [] specIntImm [] "x" tdIntImm rfl rfl).1 none (Val.vInt 23)
      (ValMap.cons "x" (Val.vInt 23) ValMap.nil) st2 (by decide)⟩

/-- Validity of a declared annotation: the eager checks of `TypeDef.__init__`
hold for it (trivially for a bare type; for a FieldSpec, its choices are
type-compatible and its predicate arity is at most one).  Every annotation
accepted at declaration time satisfies this. -/
def annotValidB : Annot → Bool
  | .bare _ => true
  | .spec td =>
      choicesTypeOk td.typeof td.choices &&
        (match td.validate_fn with
         | some f => decide (f.arity ≤ 1)
         | none => true)

theorem TypeDef.init_ok (typeof : List Ty) (req imm : Option Bool)
    (cho : Option (List Val)) (vfn : Option PyFn) (conv : Option Bool)
    (h1 : choicesTypeOk typeof cho = true)
    (h2 : ∀ f, vfn = some f → f.arity ≤ 1) :
    TypeDef.init typeof req imm cho vfn conv =
      .ok (TypeDef.mk typeof req imm cho vfn conv) := by
  unfold TypeDef.init
  rw [if_pos h1]
  split
  · rename_i f
    split
    · rename_i hgt
      have := h2 f rfl
      omega
    · rfl
  · rfl

theorem strictRewrite1_spec (td : TypeDef)
    (h1 : choicesTypeOk td.typeof td.choices = true)
    (h2 : ∀ f, td.validate_fn = some f → f.arity ≤ 1) :
    strictRewrite1 (.spec td) = .ok (.spec (TypeDef.mk td.typeof
      (some (td.required.getD true)) (some (td.immutable.getD true))
      td.choices td.validate_fn td.convert)) := by
  show Except.map Annot.spec (TypeDef.init td.typeof (some (td.required.getD true))
    (some (td.immutable.getD true)) td.choices td.validate_fn td.convert) = _
  rw [TypeDef.init_ok td.typeof (some (td.required.getD true))
    (some (td.immutable.getD true)) td.choices td.validate_fn td.convert h1 h2]
  rfl

theorem jsonRewrite1_spec (td : TypeDef)
    (h1 : choicesTypeOk td.typeof td.choices = true)
    (h2 : ∀ f, td.validate_fn = some f → f.arity ≤ 1) :
    jsonRewrite1 (.spec td) = .ok (.spec (TypeDef.mk td.typeof
      td.required td.immutable td.choices td.validate_fn
      (some (td.convert.getD true)))) := by
  show Except.map Annot.spec (TypeDef.init td.typeof td.required td.immutable
    td.choices td.validate_fn (some (td.convert.getD true))) = _
  rw [TypeDef.init_ok td.typeof td.required td.immutable td.choices td.validate_fn
    (some (td.convert.getD true)) h1 h2]
  rfl

/-- C4: the StrictVariant defaulting pass rebuilds every declared field spec
with `required` and `immutable` defaulted to true exactly when the original
left them unset (explicit true and false values are preserved, the other
constraints are carried over unchanged, and a bare type declaration becomes
a fully required+immutable spec); the JsonVariant construction applies the
same pass and additionally defaults `convert` to true when unset. -/
theorem c4_variant_defaulting (a : Annot) (hval : annotValidB a = true) :
    (strictRewrite1 a = .ok (.spec (TypeDef.mk (annotTypeof a)
      (some ((annotRequired a).getD true)) (some ((annotImmutable a).getD true))
      (annotChoices a) (annotFn a) (annotConvert a)))) ∧
    ((jsonRewrite1 a >>= strictRewrite1) = .ok (.spec (TypeDef.mk (annotTypeof a)
      (some ((annotRequired a).getD true)) (some ((annotImmutable a).getD true))
      (annotChoices a) (annotFn a) (some ((annotConvert a).getD true))))) := by
  rcases a with tys | td
  · exact ⟨rfl, rfl⟩
  · simp only [annotValidB, Bool.and_eq_true] at hval
    obtain ⟨h1, h2⟩ := hval
    have h2f : ∀ f, td.validate_fn = some f → f.arity ≤ 1 := by
      intro f hf
      rw [hf] at h2
      exact of_decide_eq_true h2
    constructor
    · rw [strictRewrite1_spec td h1 h2f]
      rfl
    · rw [jsonRewrite1_spec td h1 h2f, exbind_ok]
      have hs := strictRewrite1_spec
        (TypeDef.mk td.typeof td.required td.immutable td.choices td.validate_fn
          (some (td.convert.getD true))) h1 h2f
      rw [hs]
      rfl

/-- A FieldSpec with explicit `required := false`, unset `immutable`, and a
choices list, used as concrete test data. -/
def annotC4 : Annot :=
  Annot.spec (TypeDef.mk [Ty.tInt] (some false) none (some [Val.vInt 1]) none none)

theorem c4_variant_defaulting_witness :
    (annotValidB annotC4 = true) ∧
    ((strictRewrite1 annotC4 = .ok (.spec (TypeDef.mk (annotTypeof annotC4)
      (some ((annotRequired annotC4).getD true)) (some ((annotImmutable annotC4).getD true))
      (annotChoices annotC4) (annotFn annotC4) (annotConvert annotC4)))) ∧
    ((jsonRewrite1 annotC4 >>= strictRewrite1) = .ok (.spec (TypeDef.mk (annotTypeof annotC4)
      (some ((annotRequired annotC4).getD true)) (some ((annotImmutable annotC4).getD true))
      (annotChoices annotC4) (annotFn annotC4) (some ((annotConvert annotC4).getD true)))))) :=
  ⟨rfl, c4_variant_defaulting annotC4 rfl⟩

/-- Concatenation of two mappings (used to state which entries an
initialization loop has already processed). -/
def ValMap.append : ValMap → ValMap → ValMap
  | .nil, m2 => m2
  | .cons k v rest, m2 => .cons k v (rest.append m2)

theorem assignAll_nil (env : Env) (spec : List (String × Annot))
    (defaults : List (String × Val)) (ik : Option (List String)) (st : ValMap) :
    assignAll env spec defaults ik ValMap.nil st = .ok st := rfl

theorem assignAll_cons (env : Env) (spec : List (String × Annot))
    (defaults : List (String × Val)) (ik : Option (List String))
    (k : String) (v : Val) (rest : ValMap) (st : ValMap) :
    assignAll env spec defaults ik (ValMap.cons k v rest) st =
      if v = Val.vNone then assignAll env spec defaults ik rest st
      else
        match setattr1 env spec defaults ik k v st with
        | .error e => .error e
        | .ok st2 => assignAll env spec defaults ik rest st2 := by
  rw [assignAll_unfold]

theorem assignAll_error_split (env : Env) (spec : List (String × Annot))
    (defaults : List (String × Val)) (ik : Option (List String)) (kwargs : ValMap) :
    ∀ (st0 : ValMap) (e : Err),
      assignAll env spec defaults ik kwargs st0 = .error e →
      ∃ pre k v rest stp, kwargs = pre.append (ValMap.cons k v rest) ∧
        assignAll env spec defaults ik pre st0 = .ok stp ∧
        v ≠ Val.vNone ∧
        setattr1 env spec defaults ik k v stp = .error e := by
  induction kwargs with
  | hnil =>
      intro st0 e h
      rw [assignAll_nil] at h
      exact absurd h (by simp)
  | hcons k v rest ih =>
      intro st0 e h
      rw [assignAll_cons] at h
      by_cases hv : v = Val.vNone
      · rw [if_pos hv] at h
        obtain ⟨pre, k2, v2, rest2, stp, hsplit, hpre, hvn, hs⟩ := ih st0 e h
        refine ⟨ValMap.cons k v pre, k2, v2, rest2, stp, ?_, ?_, hvn, hs⟩
        · show ValMap.cons k v rest = ValMap.cons k v (pre.append (ValMap.cons k2 v2 rest2))
          rw [hsplit]
        · rw [assignAll_cons, if_pos hv]
          exact hpre
      · rw [if_neg hv] at h
        split at h
        · rename_i e2 hs
          injection h with h2
          subst h2
          exact ⟨ValMap.nil, k, v, rest, st0, rfl,
            assignAll_nil env spec defaults ik st0, hv, hs⟩
        · rename_i st2 hs
          obtain ⟨pre, k2, v2, rest2, stp, hsplit, hpre, hvn, hs2⟩ := ih st2 e h
          refine ⟨ValMap.cons k v pre, k2, v2, rest2, stp, ?_, ?_, hvn, hs2⟩
          · show ValMap.cons k v rest = ValMap.cons k v (pre.append (ValMap.cons k2 v2 rest2))
            rw [hsplit]
          · rw [assignAll_cons, if_neg hv, hs]
            exact hpre

theorem requiredMissing_mem (spec : List (String × Annot)) (defaults : List (String × Val))
    (st : ValMap) (k : String) :
    k ∈ requiredMissing spec defaults st ↔
      ((∃ td, (k, Annot.spec td) ∈ spec ∧ td.required.getD false = true) ∧
        hasAttr defaults st k = false) := by
  induction spec with
  | nil => simp [requiredMissing]
  | cons p rest ih =>
      obtain ⟨k2, a⟩ := p
      rcases a with tys | td
      · simp only [requiredMissing]
        rw [ih]
        constructor
        · rintro ⟨⟨td, hmem, hreq⟩, hattr⟩
          exact ⟨⟨td, List.mem_cons_of_mem _ hmem, hreq⟩, hattr⟩
        · rintro ⟨⟨td, hmem, hreq⟩, hattr⟩
          rcases List.mem_cons.mp hmem with h1 | h1
          · simp at h1
          · exact ⟨⟨td, h1, hreq⟩, hattr⟩
      · simp only [requiredMissing]
        by_cases hcond : (td.required.getD false && !(hasAttr defaults st k2)) = true
        · rw [if_pos hcond]
          rw [Bool.and_eq_true, Bool.not_eq_true'] at hcond
          obtain ⟨hreq2, hattr2⟩ := hcond
          constructor
          · intro hmem
            rcases List.mem_cons.mp hmem with h1 | h1
            · subst h1
              exact ⟨⟨td, List.mem_cons_self _ _, hreq2⟩, hattr2⟩
            · obtain ⟨⟨td3, hm3, hr3⟩, ha3⟩ := ih.mp h1
              exact ⟨⟨td3, List.mem_cons_of_mem _ hm3, hr3⟩, ha3⟩
          · rintro ⟨⟨td3, hm3, hr3⟩, ha3⟩
            rcases List.mem_cons.mp hm3 with h1 | h1
            · simp only [Prod.mk.injEq] at h1
              exact List.mem_cons.mpr (Or.inl h1.1)
            · exact List.mem_cons.mpr (Or.inr (ih.mpr ⟨⟨td3, h1, hr3⟩, ha3⟩))
        · rw [if_neg hcond]
          rw [ih]
          constructor
          · rintro ⟨⟨td3, hm3, hr3⟩, ha3⟩
            exact ⟨⟨td3, List.mem_cons_of_mem _ hm3, hr3⟩, ha3⟩
          · rintro ⟨⟨td3, hm3, hr3⟩, ha3⟩
            rcases List.mem_cons.mp hm3 with h1 | h1
            · simp only [Prod.mk.injEq] at h1
              obtain ⟨hk2, htd⟩ := h1
              subst hk2
              injection htd with htd2
              subst htd2
              rw [Bool.and_eq_true, Bool.not_eq_true'] at hcond
              exact absurd ⟨hr3, ha3⟩ hcond
            · exact ⟨⟨td3, h1, hr3⟩, ha3⟩

/-- C3: construction is fail-fast on the assignment loop and batched only
for the required-fields scan: a successful construction is exactly a
successful assignment pass followed by an empty missing-required list; a
failing construction either failed on the first violated keyword argument
in assignment order (all earlier arguments having been assigned), carrying
that field's own error, or every assignment succeeded and the single
aggregated error lists exactly the fields whose spec entry is a FieldSpec
flagged required and which hold no value. -/
theorem c3_error_discipline (env : Env) (spec : List (String × Annot))
    (defaults : List (String × Val)) (kwargs : ValMap) :
    (∀ st, baseInit env spec defaults kwargs = .ok st →
      assignAll env spec defaults (some (defaultKeys spec defaults)) kwargs ValMap.nil = .ok st ∧
      requiredMissing spec defaults st = []) ∧
    (∀ e, baseInit env spec defaults kwargs = .error e →
      (∃ st, assignAll env spec defaults (some (defaultKeys spec defaults)) kwargs ValMap.nil = .ok st ∧
        e = .missingRequired (requiredMissing spec defaults st) ∧
        requiredMissing spec defaults st ≠ []) ∨
      (∃ pre k v rest stp, kwargs = pre.append (ValMap.cons k v rest) ∧
        assignAll env spec defaults (some (defaultKeys spec defaults)) pre ValMap.nil = .ok stp ∧
        v ≠ Val.vNone ∧
        setattr1 env spec defaults (some (defaultKeys spec defaults)) k v stp = .error e)) ∧
    (∀ st k, k ∈ requiredMissing spec defaults st ↔
      ((∃ td, (k, Annot.spec td) ∈ spec ∧ td.required.getD false = true) ∧
        hasAttr defaults st k = false)) := by
  refine ⟨?_, ?_, fun st k => requiredMissing_mem spec defaults st k⟩
  · intro st h
    unfold baseInit at h
    split at h
    · exact absurd h (by simp)
    · rename_i st1 hass
      split at h
      · rename_i hmiss
        injection h with h2
        subst h2
        exact ⟨hass, hmiss⟩
      · exact absurd h (by simp)
  · intro e h
    unfold baseInit at h
    split at h
    · rename_i e2 hass
      injection h with h2
      subst h2
      exact Or.inr (assignAll_error_split env spec defaults
        (some (defaultKeys spec defaults)) kwargs ValMap.nil e2 hass)
    · rename_i st1 hass
      split at h
      · exact absurd h (by simp)
      · rename_i k1 ks1 hmiss
        injection h with h2
        subst h2
        exact Or.inl ⟨st1, hass, by rw [hmiss], by rw [hmiss]; simp⟩

/-- A required int FieldSpec with everything else unset. -/
def tdIntReq : TypeDef := TypeDef.mk [Ty.tInt] (some true) none none none none

/-- A required str FieldSpec with everything else unset. -/
def tdStrReq : TypeDef := TypeDef.mk [Ty.tStr] (some true) none none none none

/-- A two-field spec map with two required fields. -/
def specReq2 : List (String × Annot) :=
  [("a", Annot.spec tdIntReq), ("b", Annot.spec tdStrReq)]

theorem c3_error_discipline_witness :
    (baseInit [] specReq2 [] ValMap.nil = .error (.missingRequired ["a", "b"])) ∧
    ((∃ st, assignAll [] specReq2 [] (some (defaultKeys specReq2 [])) ValMap.nil ValMap.nil = .ok st ∧
        Err.missingRequired ["a", "b"] = .missingRequired (requiredMissing specReq2 [] st) ∧
        requiredMissing specReq2 [] st ≠ []) ∨
      (∃ pre k v rest stp, ValMap.nil = pre.append (ValMap.cons k v rest) ∧
        assignAll [] specReq2 [] (some (defaultKeys specReq2 [])) pre ValMap.nil = .ok stp ∧
        v ≠ Val.vNone ∧
        setattr1 [] specReq2 [] (some (defaultKeys specReq2 [])) k v stp =
          .error (.missingRequired ["a", "b"]))) :=
  ⟨rfl, (c3_error_discipline [] specReq2 [] ValMap.nil).2.1 (.missingRequired ["a", "b"]) rfl⟩

/-- Replace the value stored under a key in an association list (appending
when absent), preserving key order. -/
def alistSet {α : Type} : List (String × α) → String → α → List (String × α)
  | [], k, v => [(k, v)]
  | (k2, v2) :: rest, k, v =>
      if k2 = k then (k2, v) :: rest else (k2, v2) :: alistSet rest k v

theorem alistLookup_alistSet {α : Type} (l : List (String × α)) (k k2 : String) (v : α) :
    alistLookup (alistSet l k v) k2 = if k = k2 then some v else alistLookup l k2 := by
  induction l with
  | nil =>
      by_cases h : k = k2 <;> simp [alistSet, alistLookup, h]
  | cons p rest ih =>
      obtain ⟨k3, v3⟩ := p
      by_cases h3 : k3 = k
      · subst h3
        by_cases h2 : k3 = k2 <;> simp [alistSet, alistLookup, h2]
      · by_cases h2 : k3 = k2
        · subst h2
          have : ¬ k = k3 := fun he => h3 he.symm
          simp [alistSet, alistLookup, h3, this]
        · simp [alistSet, alistLookup, h3, h2, ih]

/-- Every entry of the mapping under the given key carries the Python `None`
value (vacuously true if the key is absent). -/
def allNoneAt (k : String) : ValMap → Bool
  | .nil => true
  | .cons k2 v rest =>
      (if k2 = k then decide (v = Val.vNone) else true) && allNoneAt k rest

theorem allNoneAt_of_not_hasKey (k : String) (kwargs : ValMap)
    (h : kwargs.hasKey k = false) : allNoneAt k kwargs = true := by
  induction kwargs with
  | hnil => rfl
  | hcons k2 v rest ih =>
      simp only [ValMap.hasKey, ValMap.lookup] at h
      by_cases h2 : k2 = k
      · rw [if_pos h2] at h
        simp at h
      · rw [if_neg h2] at h
        simp only [allNoneAt, if_neg h2, Bool.true_and]
        exact ih h

theorem assignAll_hasKey_false (env : Env) (spec : List (String × Annot))
    (defaults : List (String × Val)) (ik : Option (List String)) (k : String)
    (kwargs : ValMap) :
    ∀ st0 st, allNoneAt k kwargs = true → st0.hasKey k = false →
      assignAll env spec defaults ik kwargs st0 = .ok st → st.hasKey k = false := by
  induction kwargs with
  | hnil =>
      intro st0 st _ h0 h
      rw [assignAll_nil] at h
      injection h with h2
      subst h2
      exact h0
  | hcons k2 v rest ih =>
      intro st0 st hall h0 h
      simp only [allNoneAt, Bool.and_eq_true] at hall
      obtain ⟨h1, h2all⟩ := hall
      rw [assignAll_cons] at h
      by_cases hv : v = Val.vNone
      · rw [if_pos hv] at h
        exact ih st0 st h2all h0 h
      · rw [if_neg hv] at h
        split at h
        · exact absurd h (by simp)
        · rename_i st2 hs
          obtain ⟨v2, hst2⟩ := setattr1_ok_set env spec defaults ik k2 v st0 st2 hs
          have hk2 : k2 ≠ k := by
            intro he
            subst he
            rw [if_pos rfl] at h1
            exact hv (of_decide_eq_true h1)
          apply ih st2 st h2all ?_ h
          rw [hst2, ValMap.hasKey_set]
          simp [h0, hk2]

theorem baseInit_ok_inv (env : Env) (spec : List (String × Annot))
    (defaults : List (String × Val)) (kwargs : ValMap) (st : ValMap)
    (h : baseInit env spec defaults kwargs = .ok st) :
    assignAll env spec defaults (some (defaultKeys spec defaults)) kwargs ValMap.nil = .ok st ∧
    requiredMissing spec defaults st = [] := by
  unfold baseInit at h
  split at h
  · exact absurd h (by simp)
  · rename_i st1 hass
    split at h
    · rename_i hmiss
      injection h with h2
      subst h2
      exact ⟨hass, hmiss⟩
    · exact absurd h (by simp)

theorem attrsView_lookup_not_mem (spec : List (String × Annot))
    (defaults : List (String × Val)) (st : ValMap) (k : String)
    (h : k ∉ spec.map Prod.fst) :
    (attrsView spec defaults st).lookup k = none := by
  induction spec with
  | nil => rfl
  | cons p rest ih =>
      obtain ⟨k2, a⟩ := p
      simp only [List.map_cons, List.mem_cons] at h
      push_neg at h
      obtain ⟨hk2, hrest⟩ := h
      have hk2' : k2 ≠ k := fun he => hk2 he.symm
      simp only [attrsView]
      rcases getattrOpt defaults st k2 with _ | v
      · exact ih hrest
      · simp only [ValMap.lookup, if_neg hk2']
        exact ih hrest

theorem attrsView_lookup_mem (spec : List (String × Annot))
    (defaults : List (String × Val)) (st : ValMap) (k : String) (a : Annot)
    (hnd : (spec.map Prod.fst).Nodup) (hmem : (k, a) ∈ spec) :
    (attrsView spec defaults st).lookup k = getattrOpt defaults st k := by
  induction spec with
  | nil => simp at hmem
  | cons p rest ih =>
      obtain ⟨k2, a2⟩ := p
      simp only [List.map_cons, List.nodup_cons] at hnd
      obtain ⟨hnotin, hndrest⟩ := hnd
      by_cases hk2 : k2 = k
      · subst hk2
        simp only [attrsView]
        rcases hg : getattrOpt defaults st k2 with _ | v
        · rw [attrsView_lookup_not_mem rest defaults st k2 hnotin]
        · simp [ValMap.lookup]
      · have hmem2 : (k, a) ∈ rest := by
          rcases List.mem_cons.mp hmem with h1 | h1
          · simp only [Prod.mk.injEq] at h1
            exact absurd h1.1.symm hk2
          · exact h1
        simp only [attrsView]
        rcases getattrOpt defaults st k2 with _ | v
        · exact ih hndrest hmem2
        · simp only [ValMap.lookup, if_neg hk2]
          exact ih hndrest hmem2

theorem setattrChecks_defaults_congr (d1 d2 : List (String × Val))
    (ik : Option (List String)) (k : String) (td : TypeDef) (v2 : Val) (st : ValMap)
    (h : hasDefault d1 k = hasDefault d2 k) :
    setattrChecks d1 ik k td v2 st = setattrChecks d2 ik k td v2 st := by
  unfold setattrChecks
  rw [h]

theorem setattr1_defaults_congr (env : Env) (spec : List (String × Annot))
    (d1 d2 : List (String × Val)) (ik : Option (List String))
    (k : String) (v : Val) (st : ValMap)
    (h : hasDefault d1 k = hasDefault d2 k) :
    setattr1 env spec d1 ik k v st = setattr1 env spec d2 ik k v st := by
  rw [setattr1_unfold, setattr1_unfold]
  rcases alistLookup spec k with _ | a
  · rfl
  · rcases a with tys | td
    · rfl
    · show (match convertStep env td v with
            | Except.error e => (Except.error e : Except Err ValMap)
            | Except.ok v2 => setattrChecks d1 ik k td v2 st) =
          (match convertStep env td v with
            | Except.error e => Except.error e
            | Except.ok v2 => setattrChecks d2 ik k td v2 st)
      rcases convertStep env td v with e | v2
      · rfl
      · exact setattrChecks_defaults_congr d1 d2 ik k td v2 st h

theorem assignAll_defaults_congr (env : Env) (spec : List (String × Annot))
    (d1 d2 : List (String × Val)) (ik : Option (List String)) (kwargs : ValMap)
    (h : ∀ k2, hasDefault d1 k2 = hasDefault d2 k2) :
    ∀ st, assignAll env spec d1 ik kwargs st = assignAll env spec d2 ik kwargs st := by
  induction kwargs with
  | hnil => intro st; rfl
  | hcons k v rest ih =>
      intro st
      rw [assignAll_cons, assignAll_cons]
      by_cases hv : v = Val.vNone
      · rw [if_pos hv, if_pos hv]
        exact ih st
      · rw [if_neg hv, if_neg hv]
        rw [setattr1_defaults_congr env spec d1 d2 ik k v st (h k)]
        rcases setattr1 env spec d2 ik k v st with e | st2
        · rfl
        · exact ih st2

theorem defaultKeys_congr (spec : List (String × Annot)) (d1 d2 : List (String × Val))
    (h : ∀ k2, hasDefault d1 k2 = hasDefault d2 k2) :
    defaultKeys spec d1 = defaultKeys spec d2 := by
  unfold defaultKeys
  exact List.filter_congr (fun k _ => h k)

theorem requiredMissing_defaults_congr (spec : List (String × Annot))
    (d1 d2 : List (String × Val)) (st : ValMap)
    (h : ∀ k2, hasDefault d1 k2 = hasDefault d2 k2) :
    requiredMissing spec d1 st = requiredMissing spec d2 st := by
  induction spec with
  | nil => rfl
  | cons p rest ih =>
      obtain ⟨k2, a⟩ := p
      rcases a with tys | td
      · simp only [requiredMissing]
        exact ih
      · simp only [requiredMissing]
        have hattr : hasAttr d1 st k2 = hasAttr d2 st k2 := by
          unfold hasAttr
          rw [h k2]
        rw [hattr, ih]

theorem baseInit_defaults_congr (env : Env) (spec : List (String × Annot))
    (d1 d2 : List (String × Val)) (kwargs : ValMap)
    (h : ∀ k2, hasDefault d1 k2 = hasDefault d2 k2) :
    baseInit env spec d1 kwargs = baseInit env spec d2 kwargs := by
  unfold baseInit
  rw [defaultKeys_congr spec d1 d2 h,
    assignAll_defaults_congr env spec d1 d2 (some (defaultKeys spec d2)) kwargs h ValMap.nil]
  rcases assignAll env spec d2 (some (defaultKeys spec d2)) kwargs ValMap.nil with e | st
  · rfl
  · show (match requiredMissing spec d1 st with
          | [] => Except.ok st
          | k :: ks => Except.error (Err.missingRequired (k :: ks))) =
        (match requiredMissing spec d2 st with
          | [] => Except.ok st
          | k :: ks => Except.error (Err.missingRequired (k :: ks)))
    rw [requiredMissing_defaults_congr spec d1 d2 st h]

theorem hasKey_false_lookup_none (m : ValMap) (k : String)
    (h : m.hasKey k = false) : m.lookup k = none := by
  unfold ValMap.hasKey at h
  rcases hl : m.lookup k with _ | v
  · rfl
  · rw [hl] at h
    simp at h

/-- C9: a class-level declared default never passes through the assignment
pipeline.  If a declared field `k` has default `d` and no constructor
keyword argument mentions `k`, then after a successful construction the
value store does not contain `k`, yet the `attributes` view shows `d` for
`k`; the field can never appear in the missing-required list (the default
satisfies the required scan); and the whole construction result is
unchanged when the default value is replaced by any other value `d2`
whatsoever — so no type, choices, or predicate check ever sees the
default. -/
theorem c9_default_bypassed (env : Env) (spec : List (String × Annot))
    (defaults : List (String × Val)) (kwargs : ValMap) (k : String) (d : Val)
    (st : ValMap) (a : Annot)
    (hnd : (spec.map Prod.fst).Nodup)
    (hka : (k, a) ∈ spec)
    (hd : alistLookup defaults k = some d)
    (hnk : kwargs.hasKey k = false)
    (hok : baseInit env spec defaults kwargs = .ok st) :
    st.hasKey k = false ∧
    (attrsView spec defaults st).lookup k = some d ∧
    (∀ st2, k ∉ requiredMissing spec defaults st2) ∧
    (∀ d2, baseInit env spec (alistSet defaults k d2) kwargs =
      baseInit env spec defaults kwargs) := by
  obtain ⟨hass, hmiss⟩ := baseInit_ok_inv env spec defaults kwargs st hok
  have hkf : st.hasKey k = false :=
    assignAll_hasKey_false env spec defaults (some (defaultKeys spec defaults)) k kwargs
      ValMap.nil st (allNoneAt_of_not_hasKey k kwargs hnk) rfl hass
  refine ⟨hkf, ?_, ?_, ?_⟩
  · rw [attrsView_lookup_mem spec defaults st k a hnd hka]
    unfold getattrOpt
    rw [hasKey_false_lookup_none st k hkf]
    exact hd
  · intro st2 hmem
    rw [requiredMissing_mem] at hmem
    obtain ⟨_, hattr⟩ := hmem
    unfold hasAttr hasDefault at hattr
    rw [hd] at hattr
    simp at hattr
  · intro d2
    apply baseInit_defaults_congr
    intro k2
    unfold hasDefault
    rw [alistLookup_alistSet]
    by_cases hk2 : k = k2
    · subst hk2
      rw [if_pos rfl, hd]
      rfl
    · rw [if_neg hk2]

/-- A one-field spec map with a required int field, used as concrete test
data for the default-bypass scenario. -/
def specC9 : List (String × Annot) := [("x", Annot.spec tdIntReq)]

/-- A declared default whose value violates the field's own type (a string
default for an int field), used to show the default bypasses validation. -/
def dfltC9 : List (String × Val) := [("x", Val.vStr "bad")]

theorem c9_default_bypassed_witness :
    (((specC9.map Prod.fst).Nodup) ∧
     (("x", Annot.spec tdIntReq) ∈ specC9) ∧
     (alistLookup dfltC9 "x" = some (Val.vStr "bad")) ∧
     (ValMap.hasKey ValMap.nil "x" = false) ∧
     (baseInit [] specC9 dfltC9 ValMap.nil = .ok ValMap.nil)) ∧
    (ValMap.hasKey ValMap.nil "x" = false ∧
     (attrsView specC9 dfltC9 ValMap.nil).lookup "x" = some (Val.vStr "bad") ∧
     (∀ st2, "x" ∉ requiredMissing specC9 dfltC9 st2) ∧
     (∀ d2, baseInit [] specC9 (alistSet dfltC9 "x" d2) ValMap.nil =
       baseInit [] specC9 dfltC9 ValMap.nil)) :=
  ⟨⟨by decide, List.mem_singleton.mpr rfl, rfl, rfl, rfl⟩,
   c9_default_bypassed [] specC9 dfltC9 ValMap.nil "x" (Val.vStr "bad") ValMap.nil
     (Annot.spec tdIntReq) (by decide) (List.mem_singleton.mpr rfl) rfl rfl rfl⟩

/-- C10: a constructor keyword argument whose value is `None` is silently
skipped.  The assignment loop steps over it without invoking the pipeline
(first conjunct, the loop equation), so nothing is committed for it; as a
consequence, if every keyword entry for a required field `k` without a
default carries `None` and the remaining assignments succeed, the value
store has no entry for `k`, `k` is in the missing-required list, and
construction fails with the aggregated missing-required error rather than
any per-field check error. -/
theorem c10_none_kwargs_skipped (env : Env) (spec : List (String × Annot))
    (defaults : List (String × Val)) :
    (∀ ik k rest st, assignAll env spec defaults ik (ValMap.cons k Val.vNone rest) st =
      assignAll env spec defaults ik rest st) ∧
    (∀ k td kwargs st,
      alistLookup spec k = some (.spec td) →
      td.required.getD false = true →
      hasDefault defaults k = false →
      allNoneAt k kwargs = true →
      assignAll env spec defaults (some (defaultKeys spec defaults)) kwargs ValMap.nil = .ok st →
      st.hasKey k = false ∧
      k ∈ requiredMissing spec defaults st ∧
      baseInit env spec defaults kwargs =
        .error (.missingRequired (requiredMissing spec defaults st))) := by
  constructor
  · intro ik k rest st
    rw [assignAll_cons, if_pos rfl]
  · intro k td kwargs st hk hreq hdef hall hass
    have hkf := assignAll_hasKey_false env spec defaults
      (some (defaultKeys spec defaults)) k kwargs ValMap.nil st hall rfl hass
    have hmem : k ∈ requiredMissing spec defaults st := by
      rw [requiredMissing_mem]
      refine ⟨⟨td, alistLookup_mem spec k _ hk, hreq⟩, ?_⟩
      unfold hasAttr
      rw [hkf, hdef]
      rfl
    refine ⟨hkf, hmem, ?_⟩
    unfold baseInit
    rw [hass]
    show (match requiredMissing spec defaults st with
          | [] => Except.ok st
          | k1 :: ks => Except.error (Err.missingRequired (k1 :: ks))) =
        Except.error (Err.missingRequired (requiredMissing spec defaults st))
    rcases hm : requiredMissing spec defaults st with _ | ⟨k1, ks⟩
    · rw [hm] at hmem
      simp at hmem
    · rfl

/-- A one-field spec map with a required int field, used as concrete test
data for the None-skipping scenario. -/
def specC10 : List (String × Annot) := [("a", Annot.spec tdIntReq)]

theorem c10_none_kwargs_skipped_witness :
    ((alistLookup specC10 "a" = some (Annot.spec tdIntReq)) ∧
     (tdIntReq.required.getD false = true) ∧
     (hasDefault [] "a" = false) ∧
     (allNoneAt "a" (ValMap.cons "a" Val.vNone ValMap.nil) = true) ∧
     (assignAll [] specC10 [] (some (defaultKeys specC10 []))
        (ValMap.cons "a" Val.vNone ValMap.nil) ValMap.nil = .ok ValMap.nil)) ∧
    (ValMap.hasKey ValMap.nil "a" = false ∧
     "a" ∈ requiredMissing specC10 [] ValMap.nil ∧
     baseInit [] specC10 [] (ValMap.cons "a" Val.vNone ValMap.nil) =
       .error (.missingRequired (requiredMissing specC10 [] ValMap.nil))) :=
  ⟨⟨rfl, rfl, rfl, by decide, rfl⟩,
   (c10_none_kwargs_skipped [] specC10 []).2 "a" tdIntReq
     (ValMap.cons "a" Val.vNone ValMap.nil) ValMap.nil rfl rfl rfl (by decide) rfl⟩

/-- A declared field's annotation in the object-identity model: a bare type,
or a pointer to a FieldSpec object living in the heap. -/
inductive AnnotRef where
  | bare (typeof : List Ty)
  | ref (i : Nat)

/-- The heap of FieldSpec objects: each index is one allocated TypeDef
instance.  Allocation appends at the end; a mutation of an existing
FieldSpec would change the value at an existing index. -/
abbrev SpecHeap := List TypeDef

/-- The defaulting pass of `TypedClassStrict.__init__` (source lines
330-356) in the object-identity model: for each entry it reads the fields
of the referenced FieldSpec (or the bare type), allocates a fresh FieldSpec
built by the validating constructor with the strict defaults, and repoints
the spec-map entry at the new object — `self.annotations[key] =
TypeDef(...)`. -/
def strictPassHeap (heap : SpecHeap) :
    List (String × AnnotRef) → Except Err (SpecHeap × List (String × AnnotRef))
  | [] => .ok (heap, [])
  | (k, AnnotRef.ref i) :: rest =>
      match heap.get? i with
      | none => .error (.danglingRef i)
      | some td =>
          match TypeDef.init td.typeof (some (td.required.getD true))
              (some (td.immutable.getD true)) td.choices td.validate_fn td.convert with
          | .error e => .error e
          | .ok td2 =>
              match strictPassHeap (heap ++ [td2]) rest with
              | .error e => .error e
              | .ok pr => .ok (pr.1, (k, AnnotRef.ref heap.length) :: pr.2)
  | (k, AnnotRef.bare tys) :: rest =>
      match TypeDef.init tys (some true) (some true) none none none with
      | .error e => .error e
      | .ok td2 =>
          match strictPassHeap (heap ++ [td2]) rest with
          | .error e => .error e
          | .ok pr => .ok (pr.1, (k, AnnotRef.ref heap.length) :: pr.2)

/-- The defaulting pass of `TypedClassJson.__init__` (source lines 369-390)
in the object-identity model: reads the referenced FieldSpec, allocates a
fresh FieldSpec with `convert` defaulted to true, and repoints the entry. -/
def jsonPassHeap (heap : SpecHeap) :
    List (String × AnnotRef) → Except Err (SpecHeap × List (String × AnnotRef))
  | [] => .ok (heap, [])
  | (k, AnnotRef.ref i) :: rest =>
      match heap.get? i with
      | none => .error (.danglingRef i)
      | some td =>
          match TypeDef.init td.typeof td.required td.immutable
              td.choices td.validate_fn (some (td.convert.getD true)) with
          | .error e => .error e
          | .ok td2 =>
              match jsonPassHeap (heap ++ [td2]) rest with
              | .error e => .error e
              | .ok pr => .ok (pr.1, (k, AnnotRef.ref heap.length) :: pr.2)
  | (k, AnnotRef.bare tys) :: rest =>
      match TypeDef.init tys (some true) (some true) none none (some true) with
      | .error e => .error e
      | .ok td2 =>
          match jsonPassHeap (heap ++ [td2]) rest with
          | .error e => .error e
          | .ok pr => .ok (pr.1, (k, AnnotRef.ref heap.length) :: pr.2)

theorem strictPassHeap_preserves (entries : List (String × AnnotRef)) :
    ∀ (heap : SpecHeap) (heap2 : SpecHeap) (entries2 : List (String × AnnotRef)),
      strictPassHeap heap entries = .ok (heap2, entries2) →
      (∀ i, i < heap.length → heap2.get? i = heap.get? i) ∧
      (∀ k j, (k, AnnotRef.ref j) ∈ entries2 → heap.length ≤ j) := by
  induction entries with
  | nil =>
      intro heap heap2 entries2 h
      simp only [strictPassHeap] at h
      injection h with h2
      injection h2 with h3 h4
      subst h3
      subst h4
      exact ⟨fun i _ => rfl, fun k j hm => by simp at hm⟩
  | cons p rest ih =>
      intro heap heap2 entries2 h
      obtain ⟨k, aref⟩ := p
      rcases aref with tys | i
      · simp only [strictPassHeap] at h
        split at h
        · exact absurd h (by simp)
        · rename_i td2 hinit
          split at h
          · exact absurd h (by simp)
          · rename_i pr hrec
            injection h with h2
            injection h2 with h3 h4
            subst h3
            subst h4
            obtain ⟨hpres, hfresh⟩ := ih (heap ++ [td2]) pr.1 pr.2 hrec
            constructor
            · intro i2 hi2
              rw [hpres i2 (by simp; omega)]
              exact List.get?_append hi2
            · intro k2 j hm
              rcases List.mem_cons.mp hm with h1 | h1
              · simp only [Prod.mk.injEq] at h1
                injection h1.2 with h5
                omega
              · have := hfresh k2 j h1
                simp only [List.length_append, List.length_singleton] at this
                omega
      · simp only [strictPassHeap] at h
        split at h
        · exact absurd h (by simp)
        · rename_i td hget
          split at h
          · exact absurd h (by simp)
          · rename_i td2 hinit
            split at h
            · exact absurd h (by simp)
            · rename_i pr hrec
              injection h with h2
              injection h2 with h3 h4
              subst h3
              subst h4
              obtain ⟨hpres, hfresh⟩ := ih (heap ++ [td2]) pr.1 pr.2 hrec
              constructor
              · intro i2 hi2
                rw [hpres i2 (by simp; omega)]
                exact List.get?_append hi2
              · intro k2 j hm
                rcases List.mem_cons.mp hm with h1 | h1
                · simp only [Prod.mk.injEq] at h1
                  injection h1.2 with h5
                  omega
                · have := hfresh k2 j h1
                  simp only [List.length_append, List.length_singleton] at this
                  omega

theorem jsonPassHeap_preserves (entries : List (String × AnnotRef)) :
    ∀ (heap : SpecHeap) (heap2 : SpecHeap) (entries2 : List (String × AnnotRef)),
      jsonPassHeap heap entries = .ok (heap2, entries2) →
      (∀ i, i < heap.length → heap2.get? i = heap.get? i) ∧
      (∀ k j, (k, AnnotRef.ref j) ∈ entries2 → heap.length ≤ j) := by
  induction entries with
  | nil =>
      intro heap heap2 entries2 h
      simp only [jsonPassHeap] at h
      injection h with h2
      injection h2 with h3 h4
      subst h3
      subst h4
      exact ⟨fun i _ => rfl, fun k j hm => by simp at hm⟩
  | cons p rest ih =>
      intro heap heap2 entries2 h
      obtain ⟨k, aref⟩ := p
      rcases aref with tys | i
      · simp only [jsonPassHeap] at h
        split at h
        · exact absurd h (by simp)
        · rename_i td2 hinit
          split at h
          · exact absurd h (by simp)
          · rename_i pr hrec
            injection h with h2
            injection h2 with h3 h4
            subst h3
            subst h4
            obtain ⟨hpres, hfresh⟩ := ih (heap ++ [td2]) pr.1 pr.2 hrec
            constructor
            · intro i2 hi2
              rw [hpres i2 (by simp; omega)]
              exact List.get?_append hi2
            · intro k2 j hm
              rcases List.mem_cons.mp hm with h1 | h1
              · simp only [Prod.mk.injEq] at h1
                injection h1.2 with h5
                omega
              · have := hfresh k2 j h1
                simp only [List.length_append, List.length_singleton] at this
                omega
      · simp only [jsonPassHeap] at h
        split at h
        · exact absurd h (by simp)
        · rename_i td hget
          split at h
          · exact absurd h (by simp)
          · rename_i td2 hinit
            split at h
            · exact absurd h (by simp)
            · rename_i pr hrec
              injection h with h2
              injection h2 with h3 h4
              subst h3
              subst h4
              obtain ⟨hpres, hfresh⟩ := ih (heap ++ [td2]) pr.1 pr.2 hrec
              constructor
              · intro i2 hi2
                rw [hpres i2 (by simp; omega)]
                exact List.get?_append hi2
              · intro k2 j hm
                rcases List.mem_cons.mp hm with h1 | h1
                · simp only [Prod.mk.injEq] at h1
                  injection h1.2 with h5
                  omega
                · have := hfresh k2 j h1
                  simp only [List.length_append, List.length_singleton] at this
                  omega

/-- C8: a FieldSpec, once constructed, is never mutated.  In the
object-identity model of the variant defaulting passes, every FieldSpec
object existing before the pass is bit-for-bit unchanged afterwards (same
heap cell contents at every pre-existing index), and every spec-map entry
produced by either pass points at a freshly allocated FieldSpec instance
(an index at or beyond the old heap end) — the passes replace spec-map
entries with new objects rather than writing the fields of existing
ones. -/
theorem c8_specs_not_mutated (heap : SpecHeap) (entries : List (String × AnnotRef)) :
    (∀ heap2 entries2, strictPassHeap heap entries = .ok (heap2, entries2) →
      (∀ i, i < heap.length → heap2.get? i = heap.get? i) ∧
      (∀ k j, (k, AnnotRef.ref j) ∈ entries2 → heap.length ≤ j)) ∧
    (∀ heap2 entries2, jsonPassHeap heap entries = .ok (heap2, entries2) →
      (∀ i, i < heap.length → heap2.get? i = heap.get? i) ∧
      (∀ k j, (k, AnnotRef.ref j) ∈ entries2 → heap.length ≤ j)) :=
  ⟨fun heap2 entries2 h => strictPassHeap_preserves entries heap heap2 entries2 h,
   fun heap2 entries2 h => jsonPassHeap_preserves entries heap heap2 entries2 h⟩

/-- A two-entry declared spec map in the object-identity model. -/
def entriesC8 : List (String × AnnotRef) := [("x", AnnotRef.ref 0), ("y", AnnotRef.bare [Ty.tStr])]

/-- The heap after running the strict pass on `entriesC8` over the
one-object heap `[tdIntPlain]`. -/
def heapC8r : SpecHeap :=
  [tdIntPlain,
   TypeDef.mk [Ty.tInt] (some true) (some true) none none none,
   TypeDef.mk [Ty.tStr] (some true) (some true) none none none]

theorem c8_specs_not_mutated_witness :
    (strictPassHeap [tdIntPlain] entriesC8 =
      .ok (heapC8r, [("x", AnnotRef.ref 1), ("y", AnnotRef.ref 2)])) ∧
    ((∀ i, i < ([tdIntPlain] : SpecHeap).length →
        heapC8r.get? i = ([tdIntPlain] : SpecHeap).get? i) ∧
     (∀ k j, (k, AnnotRef.ref j) ∈ [("x", AnnotRef.ref 1), ("y", AnnotRef.ref 2)] →
        ([tdIntPlain] : SpecHeap).length ≤ j)) :=
  ⟨rfl, (c8_specs_not_mutated [tdIntPlain] entriesC8).1 heapC8r
    [("x", AnnotRef.ref 1), ("y", AnnotRef.ref 2)] rfl⟩

/-- An annotation with no choices and no predicate (bare types always
qualify); the shape-round-trip statement is about such plain
declarations. -/
def plainAnnot : Annot → Bool
  | .bare _ => true
  | .spec td => td.choices.isNone && td.validate_fn.isNone

/-- A raw value already carrying exactly the declared leaf type, so the
leaf constructor call is the identity on it. -/
def leafMatches : Ty → Val → Bool
  | Ty.tInt, Val.vInt _ => true
  | Ty.tBool, Val.vBool _ => true
  | Ty.tStr, Val.vStr _ => true
  | Ty.tDict, Val.vDict _ => true
  | _, _ => false

/-- Conformance of a nested raw mapping to an all-leaf declared class: keys
aligned in declaration order, each declaration plain with a single leaf
type matched exactly by the raw value. -/
def innerConf : List (String × Annot) → ValMap → Bool
  | [], ValMap.nil => true
  | (k, a) :: arest, ValMap.cons k2 v mrest =>
      decide (k = k2) && plainAnnot a &&
      (match annotTypeof a with
       | [t] => leafMatches t v
       | _ => false) &&
      innerConf arest mrest
  | _, _ => false

/-- Conformance of one top-level raw entry: a class-typed field holds a raw
mapping conforming to the named (all-leaf) shape-aware class and does not
opt out of conversion; any other field is a leaf field whose raw value
already has the declared type. -/
def outerConfEntry (env : Env) (a : Annot) (v : Val) : Bool :=
  match annotTypeof a, v with
  | [Ty.tClass c], Val.vDict sub =>
      !(annotConvert a == some false) &&
      (match alistLookup env c with
       | some decl =>
           decide ((decl.annots.map Prod.fst).Nodup) && innerConf decl.annots sub
       | none => false)
  | [t], _ => leafMatches t v
  | _, _ => false

/-- Entrywise conformance of a raw mapping to a declared field list, keys
aligned in declaration order. -/
def outerConfList (env : Env) : List (String × Annot) → ValMap → Bool
  | [], ValMap.nil => true
  | (k, a) :: arest, ValMap.cons k2 v mrest =>
      decide (k = k2) && plainAnnot a && outerConfEntry env a v &&
        outerConfList env arest mrest
  | _, _ => false

/-- Conformance of a raw mapping to a declared class for the round-trip
law: distinct declared keys and entrywise conformance. -/
def outerConf (env : Env) (al : List (String × Annot)) (m : ValMap) : Bool :=
  decide ((al.map Prod.fst).Nodup) && outerConfList env al m

/-- The effective FieldSpec a JsonVariant construction runs an annotation
under: the json pass followed by the strict pass. -/
def effTd (a : Annot) : TypeDef :=
  TypeDef.mk (annotTypeof a) (some ((annotRequired a).getD true))
    (some ((annotImmutable a).getD true)) (annotChoices a) (annotFn a)
    (some ((annotConvert a).getD true))

/-- The effective spec map of a JsonVariant class. -/
def effSpec (al : List (String × Annot)) : List (String × Annot) :=
  al.map (fun p => (p.1, Annot.spec (effTd p.2)))

/-- The value the pipeline commits for a conformant raw entry: a raw
mapping under a class type becomes the constructed shaped object, a leaf
value is committed unchanged. -/
def commitVal (a : Annot) (v : Val) : Val :=
  match annotTypeof a, v with
  | [Ty.tClass c], Val.vDict sub => Val.vObj c sub
  | _, _ => v

/-- The value store a conformant construction produces: the raw mapping
with each entry replaced by its committed value. -/
def objectify : List (String × Annot) → ValMap → ValMap
  | (_, a) :: arest, ValMap.cons k2 v mrest =>
      ValMap.cons k2 (commitVal a v) (objectify arest mrest)
  | _, _ => ValMap.nil

theorem plainAnnot_choices (a : Annot) (h : plainAnnot a = true) :
    annotChoices a = none := by
  rcases a with tys | td
  · rfl
  · simp only [plainAnnot, Bool.and_eq_true, Option.isNone_iff_eq_none] at h
    exact h.1

theorem plainAnnot_fn (a : Annot) (h : plainAnnot a = true) :
    annotFn a = none := by
  rcases a with tys | td
  · rfl
  · simp only [plainAnnot, Bool.and_eq_true, Option.isNone_iff_eq_none] at h
    exact h.2

theorem coerceLeaf_id (t : Ty) (v : Val) (h : leafMatches t v = true) :
    coerceLeaf t v = .ok v := by
  cases t <;> cases v <;> simp_all [leafMatches, coerceLeaf, pyTruthy, pyStr]

theorem isinstance_leaf (t : Ty) (v : Val) (h : leafMatches t v = true) :
    isinstance v [t] = true := by
  cases t <;> cases v <;> simp_all [leafMatches, isinstance, isinstance1]

theorem ValMap.hasKey_of_mem_keyList (m : ValMap) (k : String)
    (h : k ∈ m.keyList) : m.hasKey k = true := by
  induction m with
  | hnil => simp [ValMap.keyList] at h
  | hcons k2 v rest ih =>
      simp only [ValMap.keyList, List.mem_cons] at h
      simp only [ValMap.hasKey, ValMap.lookup]
      rcases h with h1 | h1
      · rw [if_pos h1.symm]
        rfl
      · by_cases h2 : k2 = k
        · rw [if_pos h2]
          rfl
        · rw [if_neg h2]
          exact ih h1

theorem innerConf_keys (al : List (String × Annot)) :
    ∀ m, innerConf al m = true → al.map Prod.fst = m.keyList := by
  induction al with
  | nil =>
      intro m h
      cases m
      · rfl
      · simp [innerConf] at h
  | cons p arest ih =>
      intro m h
      obtain ⟨k, a⟩ := p
      cases m with
      | nil => simp [innerConf] at h
      | cons k2 v mrest =>
          simp only [innerConf, Bool.and_eq_true, decide_eq_true_eq] at h
          obtain ⟨⟨⟨hk, _⟩, _⟩, hrest⟩ := h
          simp only [List.map_cons, ValMap.keyList]
          rw [hk, ih mrest hrest]

theorem outerConfList_keys (env : Env) (al : List (String × Annot)) :
    ∀ m, outerConfList env al m = true → al.map Prod.fst = m.keyList := by
  induction al with
  | nil =>
      intro m h
      cases m
      · rfl
      · simp [outerConfList] at h
  | cons p arest ih =>
      intro m h
      obtain ⟨k, a⟩ := p
      cases m with
      | nil => simp [outerConfList] at h
      | cons k2 v mrest =>
          simp only [outerConfList, Bool.and_eq_true, decide_eq_true_eq] at h
          obtain ⟨⟨⟨hk, _⟩, _⟩, hrest⟩ := h
          simp only [List.map_cons, ValMap.keyList]
          rw [hk, ih mrest hrest]

theorem objectify_keys (al : List (String × Annot)) :
    ∀ m, al.map Prod.fst = m.keyList → (objectify al m).keyList = m.keyList := by
  induction al with
  | nil =>
      intro m h
      cases m
      · rfl
      · simp [ValMap.keyList] at h
  | cons p arest ih =>
      intro m h
      obtain ⟨k, a⟩ := p
      cases m with
      | nil => simp [ValMap.keyList] at h
      | cons k2 v mrest =>
          simp only [List.map_cons, ValMap.keyList, List.cons.injEq] at h
          simp only [objectify, ValMap.keyList]
          rw [ih mrest h.2]

theorem ValMap.append_cons_shift (m : ValMap) (k : String) (v : Val) (r : ValMap) :
    (m.append (ValMap.cons k v ValMap.nil)).append r = m.append (ValMap.cons k v r) := by
  induction m with
  | hnil => rfl
  | hcons k2 v2 rest ih =>
      simp only [ValMap.append]
      rw [ih]

theorem ValMap.set_fresh (m : ValMap) (k : String) (v : Val)
    (h : m.hasKey k = false) : m.set k v = m.append (ValMap.cons k v ValMap.nil) := by
  induction m with
  | hnil => rfl
  | hcons k2 v2 rest ih =>
      simp only [ValMap.hasKey, ValMap.lookup] at h
      by_cases h2 : k2 = k
      · rw [if_pos h2] at h
        simp at h
      · rw [if_neg h2] at h
        simp only [ValMap.set, ValMap.append, if_neg h2]
        rw [ih h]

theorem requiredMissing_nil_of (spec2 : List (String × Annot))
    (defaults : List (String × Val)) (st : ValMap)
    (h : ∀ k2, k2 ∈ spec2.map Prod.fst → hasAttr defaults st k2 = true) :
    requiredMissing spec2 defaults st = [] := by
  induction spec2 with
  | nil => rfl
  | cons p rest ih =>
      obtain ⟨k, a⟩ := p
      have hrest : ∀ k2, k2 ∈ rest.map Prod.fst → hasAttr defaults st k2 = true :=
        fun k2 hk2 => h k2 (by simp [hk2])
      rcases a with tys | td
      · simp only [requiredMissing]
        exact ih hrest
      · simp only [requiredMissing]
        rw [h k (by simp)]
        simp only [Bool.not_true, Bool.and_false, Bool.false_eq_true, if_false]
        exact ih hrest

theorem attrsView_cons_shadow (spec2 : List (String × Annot))
    (d : List (String × Val)) (k : String) (v : Val) (st : ValMap)
    (h : k ∉ spec2.map Prod.fst) :
    attrsView spec2 d (ValMap.cons k v st) = attrsView spec2 d st := by
  induction spec2 with
  | nil => rfl
  | cons p rest ih =>
      obtain ⟨k2, a⟩ := p
      simp only [List.map_cons, List.mem_cons] at h
      push_neg at h
      obtain ⟨hk2, hrest⟩ := h
      simp only [attrsView, getattrOpt, ValMap.lookup]
      rw [if_neg hk2, ih hrest]

theorem attrsView_aligned (spec2 : List (String × Annot)) (d : List (String × Val)) :
    ∀ st, spec2.map Prod.fst = st.keyList → (spec2.map Prod.fst).Nodup →
      attrsView spec2 d st = st := by
  induction spec2 with
  | nil =>
      intro st h _
      cases st
      · rfl
      · simp [ValMap.keyList] at h
  | cons p rest ih =>
      intro st h hnd
      obtain ⟨k, a⟩ := p
      cases st with
      | nil => simp [ValMap.keyList] at h
      | cons k2 v strest =>
          simp only [List.map_cons, ValMap.keyList, List.cons.injEq] at h
          obtain ⟨hk, hkeys⟩ := h
          subst hk
          simp only [List.map_cons, List.nodup_cons] at hnd
          obtain ⟨hnotin, hndrest⟩ := hnd
          have hg : getattrOpt d (ValMap.cons k v strest) k = some v := by
            simp [getattrOpt, ValMap.lookup]
          show (match getattrOpt d (ValMap.cons k v strest) k with
                | some v2 => ValMap.cons k v2 (attrsView rest d (ValMap.cons k v strest))
                | none => attrsView rest d (ValMap.cons k v strest)) = ValMap.cons k v strest
          rw [hg]
          show ValMap.cons k v (attrsView rest d (ValMap.cons k v strest)) =
            ValMap.cons k v strest
          rw [attrsView_cons_shadow rest d k v strest hnotin]
          rw [ih strest hkeys hndrest]

theorem ValMap.append_nil_right (m : ValMap) : m.append ValMap.nil = m := by
  induction m with
  | hnil => rfl
  | hcons k v rest ih =>
      simp only [ValMap.append]
      rw [ih]

theorem ValMap.hasKey_append (m1 m2 : ValMap) (k : String) :
    (m1.append m2).hasKey k = (m1.hasKey k || m2.hasKey k) := by
  induction m1 with
  | hnil => rfl
  | hcons k2 v rest ih =>
      simp only [ValMap.append, ValMap.hasKey, ValMap.lookup]
      by_cases h2 : k2 = k
      · simp [h2]
      · simp only [if_neg h2]
        exact ih

theorem leafMatches_ne_none (t : Ty) (v : Val) (h : leafMatches t v = true) :
    v ≠ Val.vNone := by
  intro he
  subst he
  cases t <;> simp [leafMatches] at h

theorem singleton_leaf_of (a : Annot) (v : Val)
    (h : (match annotTypeof a with
          | [t] => leafMatches t v
          | _ => false) = true) :
    ∃ t, annotTypeof a = [t] ∧ leafMatches t v = true := by
  rcases hta : annotTypeof a with _ | ⟨t, ts⟩
  · rw [hta] at h
    simp at h
  · rcases ts with _ | ⟨t2, ts2⟩
    · rw [hta] at h
      exact ⟨t, rfl, h⟩
    · rw [hta] at h
      simp at h

theorem innerConf_plain (al : List (String × Annot)) :
    ∀ m, innerConf al m = true → ∀ p, p ∈ al → plainAnnot p.2 = true := by
  induction al with
  | nil => intro m _ p hp; simp at hp
  | cons q arest ih =>
      intro m h p hp
      obtain ⟨k, a⟩ := q
      cases m with
      | nil => simp [innerConf] at h
      | cons k2 v mrest =>
          simp only [innerConf, Bool.and_eq_true] at h
          obtain ⟨⟨⟨_, hpa⟩, _⟩, hrest⟩ := h
          rcases List.mem_cons.mp hp with h1 | h1
          · subst h1
            exact hpa
          · exact ih mrest hrest p h1

theorem effSpec_keys (al : List (String × Annot)) :
    (effSpec al).map Prod.fst = al.map Prod.fst := by
  unfold effSpec
  rw [List.map_map]
  rfl

theorem alistLookup_effSpec (al : List (String × Annot)) (k : String) (a : Annot)
    (hnd : (al.map Prod.fst).Nodup) (hmem : (k, a) ∈ al) :
    alistLookup (effSpec al) k = some (.spec (effTd a)) := by
  apply alistLookup_of_mem
  · rw [effSpec_keys]
    exact hnd
  · exact List.mem_map_of_mem (fun p => (p.1, Annot.spec (effTd p.2))) hmem

theorem immutStep_ok_init (spec2 : List (String × Annot)) (defaults : List (String × Val))
    (k : String) (td : TypeDef) (st0 : ValMap)
    (hst : st0.hasKey k = false) (hkin : k ∈ spec2.map Prod.fst) :
    immutStep defaults (some (defaultKeys spec2 defaults)) k td st0 = .ok () := by
  unfold immutStep
  by_cases him : td.immutable.getD false = true
  · rw [if_pos him, if_neg (by rw [hst]; simp)]
    by_cases hd : hasDefault defaults k = true
    · rw [if_pos hd]
      have hmem : k ∈ defaultKeys spec2 defaults := by
        unfold defaultKeys
        exact List.mem_filter.mpr ⟨hkin, hd⟩
      show (if (defaultKeys spec2 defaults).contains k = true then Except.ok ()
            else Except.error (Err.immutableDefault k)) = Except.ok ()
      rw [if_pos (List.elem_eq_true_of_mem hmem)]
    · rw [if_neg hd]
  · rw [if_neg him]

/-- The json and strict passes composed on one plain annotation. -/
def jsonTdA : Annot → Annot
  | .bare tys => Annot.spec (TypeDef.mk tys (some true) (some true) none none (some true))
  | .spec td => Annot.spec (TypeDef.mk td.typeof td.required td.immutable td.choices
      td.validate_fn (some (td.convert.getD true)))

/-- The strict pass on one annotation, as a total function on the
shapes produced after the json pass. -/
def strictTdA : Annot → Annot
  | .bare tys => Annot.spec (TypeDef.mk tys (some true) (some true) none none none)
  | .spec td => Annot.spec (TypeDef.mk td.typeof (some (td.required.getD true))
      (some (td.immutable.getD true)) td.choices td.validate_fn td.convert)

theorem jsonRewrite1_plain (a : Annot) (h : plainAnnot a = true) :
    jsonRewrite1 a = .ok (jsonTdA a) := by
  rcases a with tys | td
  · rfl
  · simp only [plainAnnot, Bool.and_eq_true, Option.isNone_iff_eq_none] at h
    obtain ⟨hc, hf⟩ := h
    have h1 : choicesTypeOk td.typeof td.choices = true := by
      rw [hc]
      rfl
    have h2 : ∀ f, td.validate_fn = some f → f.arity ≤ 1 := by
      intro f hx
      rw [hf] at hx
      cases hx
    exact jsonRewrite1_spec td h1 h2

theorem strictRewrite1_plain (a : Annot) (h : plainAnnot a = true) :
    strictRewrite1 a = .ok (strictTdA a) := by
  rcases a with tys | td
  · rfl
  · simp only [plainAnnot, Bool.and_eq_true, Option.isNone_iff_eq_none] at h
    obtain ⟨hc, hf⟩ := h
    have h1 : choicesTypeOk td.typeof td.choices = true := by
      rw [hc]
      rfl
    have h2 : ∀ f, td.validate_fn = some f → f.arity ≤ 1 := by
      intro f hx
      rw [hf] at hx
      cases hx
    exact strictRewrite1_spec td h1 h2

theorem plainAnnot_jsonTdA (a : Annot) (h : plainAnnot a = true) :
    plainAnnot (jsonTdA a) = true := by
  rcases a with tys | td
  · rfl
  · simp_all [plainAnnot, jsonTdA]

theorem strictTdA_jsonTdA (a : Annot) : strictTdA (jsonTdA a) = Annot.spec (effTd a) := by
  rcases a with tys | td <;> rfl

theorem rewriteAll_ok (f : Annot → Except Err Annot) (g : Annot → Annot) :
    ∀ (l : List (String × Annot)), (∀ p, p ∈ l → f p.2 = .ok (g p.2)) →
      rewriteAll f l = .ok (l.map (fun p => (p.1, g p.2))) := by
  intro l
  induction l with
  | nil => intro _; rfl
  | cons p rest ih =>
      intro h
      obtain ⟨k, a⟩ := p
      simp only [rewriteAll]
      rw [h (k, a) (List.mem_cons_self _ _), exbind_ok,
        ih (fun q hq => h q (List.mem_cons_of_mem _ hq)), exbind_ok]
      rfl

theorem jsonEffSpec_plainList (al : List (String × Annot))
    (h : ∀ p, p ∈ al → plainAnnot p.2 = true) :
    jsonEffSpec al = .ok (effSpec al) := by
  have hjson : ∀ p, p ∈ al → jsonRewrite1 p.2 = .ok (jsonTdA p.2) :=
    fun p hp => jsonRewrite1_plain p.2 (h p hp)
  have hstrict : ∀ p, p ∈ al.map (fun q => (q.1, jsonTdA q.2)) →
      strictRewrite1 p.2 = .ok (strictTdA p.2) := by
    intro p hp
    obtain ⟨q, hq, hpe⟩ := List.mem_map.mp hp
    subst hpe
    exact strictRewrite1_plain (jsonTdA q.2) (plainAnnot_jsonTdA q.2 (h q hq))
  unfold jsonEffSpec
  rw [rewriteAll_ok jsonRewrite1 jsonTdA al hjson, exbind_ok,
    rewriteAll_ok strictRewrite1 strictTdA _ hstrict, List.map_map]
  unfold effSpec
  congr 1
  apply List.map_congr_left
  intro p _
  show (p.1, strictTdA (jsonTdA p.2)) = (p.1, Annot.spec (effTd p.2))
  rw [strictTdA_jsonTdA]

theorem setattr1_conf_leaf (env : Env) (spec2 : List (String × Annot))
    (defaults : List (String × Val)) (k : String) (a : Annot) (t : Ty) (v : Val)
    (st0 : ValMap)
    (hl : alistLookup spec2 k = some (.spec (effTd a)))
    (hkin : k ∈ spec2.map Prod.fst)
    (hp : plainAnnot a = true)
    (hta : annotTypeof a = [t])
    (hlm : leafMatches t v = true)
    (hst : st0.hasKey k = false) :
    setattr1 env spec2 defaults (some (defaultKeys spec2 defaults)) k v st0 =
      .ok (st0.set k v) := by
  have hconv : convertStep env (effTd a) v = .ok v := by
    unfold convertStep
    by_cases hcv : (effTd a).convert.getD false = true
    · rw [if_pos hcv]
      have htyof : (effTd a).typeof = [t] := hta
      rw [htyof]
      cases t with
      | tClass c => cases v <;> simp [leafMatches] at hlm
      | tInt => exact coerceLeaf_id Ty.tInt v hlm
      | tBool => exact coerceLeaf_id Ty.tBool v hlm
      | tStr => exact coerceLeaf_id Ty.tStr v hlm
      | tDict => exact coerceLeaf_id Ty.tDict v hlm
    · rw [if_neg hcv]
  have htcs : typeCheckStep k (effTd a) v = .ok () := by
    unfold typeCheckStep
    have hi : isinstance v (effTd a).typeof = true := by
      show isinstance v (annotTypeof a) = true
      rw [hta]
      exact isinstance_leaf t v hlm
    rw [if_pos hi]
  have him := immutStep_ok_init spec2 defaults k (effTd a) st0 hst hkin
  have hcho : choicesStep k (effTd a) v = .ok () := by
    unfold choicesStep
    have hc : (effTd a).choices = none := plainAnnot_choices a hp
    rw [hc]
  have hfn : fnStep k (effTd a) v = .ok () := by
    unfold fnStep
    have hf : (effTd a).validate_fn = none := plainAnnot_fn a hp
    rw [hf]
  have hrw : setattr1 env spec2 defaults (some (defaultKeys spec2 defaults)) k v st0 =
      match convertStep env (effTd a) v with
      | .error e => .error e
      | .ok v2 => setattrChecks defaults (some (defaultKeys spec2 defaults)) k (effTd a) v2 st0 := by
    rw [setattr1_unfold, hl]
  rw [hrw, hconv]
  show setattrChecks defaults (some (defaultKeys spec2 defaults)) k (effTd a) v st0 =
    .ok (st0.set k v)
  rw [setattrChecks_eq_steps, htcs, exbind_ok, him, exbind_ok, hcho, exbind_ok,
    hfn, exbind_ok]

theorem assignAll_inner (env : Env) (alFull : List (String × Annot))
    (defaults : List (String × Val)) (hndF : (alFull.map Prod.fst).Nodup) :
    ∀ (al : List (String × Annot)) (m : ValMap) (st0 : ValMap),
      (∀ p, p ∈ al → p ∈ alFull) →
      innerConf al m = true →
      (∀ k2, k2 ∈ al.map Prod.fst → st0.hasKey k2 = false) →
      ((al.map Prod.fst).Nodup) →
      assignAll env (effSpec alFull) defaults
        (some (defaultKeys (effSpec alFull) defaults)) m st0 = .ok (st0.append m) := by
  intro al
  induction al with
  | nil =>
      intro m st0 _ hic _ _
      cases m with
      | nil =>
          rw [assignAll_nil, ValMap.append_nil_right]
      | cons k2 v mrest => simp [innerConf] at hic
  | cons p arest ih =>
      intro m st0 hsub hic hfr hnd
      obtain ⟨k, a⟩ := p
      cases m with
      | nil => simp [innerConf] at hic
      | cons k2 v mrest =>
          simp only [innerConf, Bool.and_eq_true, decide_eq_true_eq] at hic
          obtain ⟨⟨⟨hk, hpa⟩, hlmm⟩, hrest⟩ := hic
          subst hk
          obtain ⟨t, hta, hlm⟩ := singleton_leaf_of a v hlmm
          simp only [List.map_cons, List.nodup_cons] at hnd
          obtain ⟨hknotin, hndrest⟩ := hnd
          have hstk : st0.hasKey k = false := hfr k (by simp)
          rw [assignAll_cons, if_neg (leafMatches_ne_none t v hlm)]
          rw [setattr1_conf_leaf env (effSpec alFull) defaults k a t v st0
            (alistLookup_effSpec alFull k a hndF (hsub (k, a) (List.mem_cons_self _ _)))
            (by
              rw [effSpec_keys]
              exact List.mem_map_of_mem Prod.fst (hsub (k, a) (List.mem_cons_self _ _)))
            hpa hta hlm hstk]
          show assignAll env (effSpec alFull) defaults
            (some (defaultKeys (effSpec alFull) defaults)) mrest (st0.set k v) =
            .ok (st0.append (ValMap.cons k v mrest))
          rw [ValMap.set_fresh st0 k v hstk]
          rw [ih mrest (st0.append (ValMap.cons k v ValMap.nil))
            (fun q hq => hsub q (List.mem_cons_of_mem _ hq)) hrest
            ?_ hndrest]
          · rw [ValMap.append_cons_shift]
          · intro k2 hk2
            rw [ValMap.hasKey_append]
            have h1 : st0.hasKey k2 = false := hfr k2 (by simp [hk2])
            have h2 : (ValMap.cons k v ValMap.nil).hasKey k2 = false := by
              simp only [ValMap.hasKey, ValMap.lookup]
              rw [if_neg (fun he => hknotin (by rw [he]; exact hk2))]
              rfl
            rw [h1, h2]
            rfl

theorem convertStep_class (env : Env) (a : Annot) (c : String) (decl : ClassDecl)
    (sub : ValMap)
    (hta : annotTypeof a = [Ty.tClass c])
    (hcv : annotConvert a ≠ some false)
    (hdecl : alistLookup env c = some decl)
    (hndI : (decl.annots.map Prod.fst).Nodup)
    (hic : innerConf decl.annots sub = true) :
    convertStep env (effTd a) (Val.vDict sub) = .ok (Val.vObj c sub) := by
  have hcvb : (effTd a).convert.getD false = true := by
    show (some ((annotConvert a).getD true)).getD false = true
    rcases hco : annotConvert a with _ | b
    · rfl
    · cases b
      · exact absurd hco hcv
      · rfl
  have hty : (effTd a).typeof = [Ty.tClass c] := hta
  have hpl : ∀ p, p ∈ decl.annots → plainAnnot p.2 = true :=
    innerConf_plain decl.annots sub hic
  have hje : jsonEffSpec decl.annots = .ok (effSpec decl.annots) :=
    jsonEffSpec_plainList decl.annots hpl
  have hass : assignAll env (effSpec decl.annots) decl.defaults
      (some (defaultKeys (effSpec decl.annots) decl.defaults)) sub ValMap.nil =
      .ok sub :=
    assignAll_inner env decl.annots decl.defaults hndI decl.annots sub ValMap.nil
      (fun _ hp => hp) hic (fun _ _ => rfl) hndI
  have hkeys : decl.annots.map Prod.fst = sub.keyList := innerConf_keys decl.annots sub hic
  have hreq : requiredMissing (effSpec decl.annots) decl.defaults sub = [] := by
    apply requiredMissing_nil_of
    intro k2 hk2
    rw [effSpec_keys, hkeys] at hk2
    unfold hasAttr
    rw [ValMap.hasKey_of_mem_keyList sub k2 hk2]
    rfl
  unfold convertStep
  rw [if_pos hcvb, hty]
  show (match alistLookup env c with
        | some decl2 =>
            (match (Val.vDict sub : Val) with
             | Val.vDict m =>
                 (match jsonEffSpec decl2.annots with
                  | Except.error e => Except.error e
                  | Except.ok spec2 =>
                      match assignAll env spec2 decl2.defaults
                          (some (defaultKeys spec2 decl2.defaults)) m ValMap.nil with
                      | Except.error e => Except.error e
                      | Except.ok st2 =>
                          match requiredMissing spec2 decl2.defaults st2 with
                          | [] => Except.ok (Val.vObj c st2)
                          | k1 :: krest => Except.error (Err.missingRequired (k1 :: krest)))
             | _ => Except.error (Err.ctorArgNotDict c))
        | none => Except.error (Err.classNotFound c)) = .ok (Val.vObj c sub)
  rw [hdecl]
  show (match jsonEffSpec decl.annots with
        | Except.error e => Except.error e
        | Except.ok spec2 =>
            match assignAll env spec2 decl.defaults
                (some (defaultKeys spec2 decl.defaults)) sub ValMap.nil with
            | Except.error e => Except.error e
            | Except.ok st2 =>
                match requiredMissing spec2 decl.defaults st2 with
                | [] => Except.ok (Val.vObj c st2)
                | k1 :: krest => Except.error (Err.missingRequired (k1 :: krest)))
      = .ok (Val.vObj c sub)
  rw [hje]
  show (match assignAll env (effSpec decl.annots) decl.defaults
            (some (defaultKeys (effSpec decl.annots) decl.defaults)) sub ValMap.nil with
        | Except.error e => Except.error e
        | Except.ok st2 =>
            match requiredMissing (effSpec decl.annots) decl.defaults st2 with
            | [] => Except.ok (Val.vObj c st2)
            | k1 :: krest => Except.error (Err.missingRequired (k1 :: krest)))
      = .ok (Val.vObj c sub)
  rw [hass]
  show (match requiredMissing (effSpec decl.annots) decl.defaults sub with
        | [] => (Except.ok (Val.vObj c sub) : Except Err Val)
        | k1 :: krest => Except.error (Err.missingRequired (k1 :: krest)))
      = .ok (Val.vObj c sub)
  rw [hreq]

theorem setattr1_conf_class (env : Env) (spec2 : List (String × Annot))
    (defaults : List (String × Val)) (k : String) (a : Annot) (c : String)
    (decl : ClassDecl) (sub : ValMap) (st0 : ValMap)
    (hl : alistLookup spec2 k = some (.spec (effTd a)))
    (hkin : k ∈ spec2.map Prod.fst)
    (hp : plainAnnot a = true)
    (hta : annotTypeof a = [Ty.tClass c])
    (hcv : annotConvert a ≠ some false)
    (hdecl : alistLookup env c = some decl)
    (hndI : (decl.annots.map Prod.fst).Nodup)
    (hic : innerConf decl.annots sub = true)
    (hst : st0.hasKey k = false) :
    setattr1 env spec2 defaults (some (defaultKeys spec2 defaults)) k (Val.vDict sub) st0 =
      .ok (st0.set k (Val.vObj c sub)) := by
  have hconv := convertStep_class env a c decl sub hta hcv hdecl hndI hic
  have htcs : typeCheckStep k (effTd a) (Val.vObj c sub) = .ok () := by
    unfold typeCheckStep
    have hi : isinstance (Val.vObj c sub) (effTd a).typeof = true := by
      show isinstance (Val.vObj c sub) (annotTypeof a) = true
      rw [hta]
      simp [isinstance, isinstance1]
    rw [if_pos hi]
  have him := immutStep_ok_init spec2 defaults k (effTd a) st0 hst hkin
  have hcho : choicesStep k (effTd a) (Val.vObj c sub) = .ok () := by
    unfold choicesStep
    have hc2 : (effTd a).choices = none := plainAnnot_choices a hp
    rw [hc2]
  have hfn : fnStep k (effTd a) (Val.vObj c sub) = .ok () := by
    unfold fnStep
    have hf : (effTd a).validate_fn = none := plainAnnot_fn a hp
    rw [hf]
  rw [setattr1_unfold, hl]
  show (match convertStep env (effTd a) (Val.vDict sub) with
        | Except.error e => Except.error e
        | Except.ok v2 => setattrChecks defaults (some (defaultKeys spec2 defaults)) k (effTd a) v2 st0)
      = .ok (st0.set k (Val.vObj c sub))
  rw [hconv]
  show setattrChecks defaults (some (defaultKeys spec2 defaults)) k (effTd a)
      (Val.vObj c sub) st0 = .ok (st0.set k (Val.vObj c sub))
  rw [setattrChecks_eq_steps, htcs, exbind_ok, him, exbind_ok, hcho, exbind_ok,
    hfn, exbind_ok]

theorem outerConfList_plain (env : Env) (al : List (String × Annot)) :
    ∀ m, outerConfList env al m = true → ∀ p, p ∈ al → plainAnnot p.2 = true := by
  induction al with
  | nil => intro m _ p hp; simp at hp
  | cons q arest ih =>
      intro m h p hp
      obtain ⟨k, a⟩ := q
      cases m with
      | nil => simp [outerConfList] at h
      | cons k2 v mrest =>
          simp only [outerConfList, Bool.and_eq_true] at h
          obtain ⟨⟨⟨_, hpa⟩, _⟩, hrest⟩ := h
          rcases List.mem_cons.mp hp with h1 | h1
          · subst h1
            exact hpa
          · exact ih mrest hrest p h1

theorem outerConfEntry_cases (env : Env) (a : Annot) (v : Val)
    (h : outerConfEntry env a v = true) :
    (∃ t, annotTypeof a = [t] ∧ leafMatches t v = true) ∨
    (∃ c sub decl, annotTypeof a = [Ty.tClass c] ∧ v = Val.vDict sub ∧
      annotConvert a ≠ some false ∧ alistLookup env c = some decl ∧
      (decl.annots.map Prod.fst).Nodup ∧ innerConf decl.annots sub = true) := by
  unfold outerConfEntry at h
  rcases hta : annotTypeof a with _ | ⟨t, ts⟩
  · rw [hta] at h
    simp at h
  · rcases ts with _ | ⟨t2, ts2⟩
    · rw [hta] at h
      cases t with
      | tClass c =>
          cases v with
          | vDict sub =>
              right
              simp only [Bool.and_eq_true] at h
              obtain ⟨hcv, h2⟩ := h
              have hcv2 : annotConvert a ≠ some false := by
                intro he
                rw [he] at hcv
                simp at hcv
              rcases hdecl : alistLookup env c with _ | decl
              · rw [hdecl] at h2
                simp at h2
              · rw [hdecl] at h2
                simp only [Bool.and_eq_true, decide_eq_true_eq] at h2
                exact ⟨c, sub, decl, rfl, rfl, hcv2, hdecl, h2.1, h2.2⟩
          | vInt n => simp [leafMatches] at h
          | vBool b => simp [leafMatches] at h
          | vStr s => simp [leafMatches] at h
          | vNone => simp [leafMatches] at h
          | vObj c2 st2 => simp [leafMatches] at h
      | tInt => exact Or.inl ⟨Ty.tInt, rfl, h⟩
      | tBool => exact Or.inl ⟨Ty.tBool, rfl, h⟩
      | tStr => exact Or.inl ⟨Ty.tStr, rfl, h⟩
      | tDict => exact Or.inl ⟨Ty.tDict, rfl, h⟩
    · rw [hta] at h
      simp at h

theorem commitVal_leaf (a : Annot) (t : Ty) (v : Val)
    (hta : annotTypeof a = [t]) (hlm : leafMatches t v = true) :
    commitVal a v = v := by
  unfold commitVal
  rw [hta]
  cases t with
  | tClass c => cases v <;> simp [leafMatches] at hlm
  | tInt => cases v <;> rfl
  | tBool => cases v <;> rfl
  | tStr => cases v <;> rfl
  | tDict => cases v <;> rfl

theorem commitVal_class (a : Annot) (c : String) (sub : ValMap)
    (hta : annotTypeof a = [Ty.tClass c]) :
    commitVal a (Val.vDict sub) = Val.vObj c sub := by
  unfold commitVal
  rw [hta]

theorem outerConfEntry_ne_none (env : Env) (a : Annot) (v : Val)
    (h : outerConfEntry env a v = true) : v ≠ Val.vNone := by
  rcases outerConfEntry_cases env a v h with ⟨t, _, hlm⟩ | ⟨c, sub, decl, _, hv, _⟩
  · exact leafMatches_ne_none t v hlm
  · rw [hv]
    intro he
    cases he

theorem assignAll_outer (env : Env) (alFull : List (String × Annot))
    (defaults : List (String × Val)) (hndF : (alFull.map Prod.fst).Nodup) :
    ∀ (al : List (String × Annot)) (m : ValMap) (st0 : ValMap),
      (∀ p, p ∈ al → p ∈ alFull) →
      outerConfList env al m = true →
      (∀ k2, k2 ∈ al.map Prod.fst → st0.hasKey k2 = false) →
      ((al.map Prod.fst).Nodup) →
      assignAll env (effSpec alFull) defaults
        (some (defaultKeys (effSpec alFull) defaults)) m st0 =
        .ok (st0.append (objectify al m)) := by
  intro al
  induction al with
  | nil =>
      intro m st0 _ hoc _ _
      cases m with
      | nil =>
          rw [assignAll_nil]
          show _ = Except.ok (st0.append ValMap.nil)
          rw [ValMap.append_nil_right]
      | cons k2 v mrest => simp [outerConfList] at hoc
  | cons p arest ih =>
      intro m st0 hsub hoc hfr hnd
      obtain ⟨k, a⟩ := p
      cases m with
      | nil => simp [outerConfList] at hoc
      | cons k2 v mrest =>
          simp only [outerConfList, Bool.and_eq_true, decide_eq_true_eq] at hoc
          obtain ⟨⟨⟨hk, hpa⟩, hent⟩, hrest⟩ := hoc
          subst hk
          simp only [List.map_cons, List.nodup_cons] at hnd
          obtain ⟨hknotin, hndrest⟩ := hnd
          have hstk : st0.hasKey k = false := hfr k (by simp)
          have hlk : alistLookup (effSpec alFull) k = some (.spec (effTd a)) :=
            alistLookup_effSpec alFull k a hndF (hsub (k, a) (List.mem_cons_self _ _))
          have hkin : k ∈ (effSpec alFull).map Prod.fst := by
            rw [effSpec_keys]
            exact List.mem_map_of_mem Prod.fst (hsub (k, a) (List.mem_cons_self _ _))
          have hset : setattr1 env (effSpec alFull) defaults
              (some (defaultKeys (effSpec alFull) defaults)) k v st0 =
              .ok (st0.set k (commitVal a v)) := by
            rcases outerConfEntry_cases env a v hent with
              ⟨t, hta, hlm⟩ | ⟨c, sub, decl, hta, hv, hcv, hdecl, hndI, hic⟩
            · rw [commitVal_leaf a t v hta hlm]
              exact setattr1_conf_leaf env (effSpec alFull) defaults k a t v st0
                hlk hkin hpa hta hlm hstk
            · subst hv
              rw [commitVal_class a c sub hta]
              exact setattr1_conf_class env (effSpec alFull) defaults k a c decl sub st0
                hlk hkin hpa hta hcv hdecl hndI hic hstk
          rw [assignAll_cons, if_neg (outerConfEntry_ne_none env a v hent), hset]
          show assignAll env (effSpec alFull) defaults
            (some (defaultKeys (effSpec alFull) defaults)) mrest (st0.set k (commitVal a v)) =
            .ok (st0.append (ValMap.cons k (commitVal a v) (objectify arest mrest)))
          rw [ValMap.set_fresh st0 k (commitVal a v) hstk]
          rw [ih mrest (st0.append (ValMap.cons k (commitVal a v) ValMap.nil))
            (fun q hq => hsub q (List.mem_cons_of_mem _ hq)) hrest
            ?_ hndrest]
          · rw [ValMap.append_cons_shift]
          · intro k2 hk2
            rw [ValMap.hasKey_append]
            have h1 : st0.hasKey k2 = false := hfr k2 (by simp [hk2])
            have h2 : (ValMap.cons k (commitVal a v) ValMap.nil).hasKey k2 = false := by
              simp only [ValMap.hasKey, ValMap.lookup]
              rw [if_neg (fun he => hknotin (by rw [he]; exact hk2))]
              rfl
            rw [h1, h2]
            rfl

theorem flattenEntryVal_commit (env : Env) (a : Annot) (v : Val)
    (h : outerConfEntry env a v = true) :
    flattenEntryVal env (commitVal a v) = v := by
  rcases outerConfEntry_cases env a v h with
    ⟨t, hta, hlm⟩ | ⟨c, sub, decl, hta, hv, _, hdecl, hndI, hic⟩
  · rw [commitVal_leaf a t v hta hlm]
    cases t <;> cases v <;> simp_all [leafMatches, flattenEntryVal]
  · subst hv
    rw [commitVal_class a c sub hta]
    show (match alistLookup env c with
          | some decl2 => Val.vDict (attrsView decl2.annots decl2.defaults sub)
          | none => Val.vObj c sub) = Val.vDict sub
    rw [hdecl]
    show Val.vDict (attrsView decl.annots decl.defaults sub) = Val.vDict sub
    rw [attrsView_aligned decl.annots decl.defaults sub
      (innerConf_keys decl.annots sub hic) hndI]

theorem mapFlatten_objectify (env : Env) (al : List (String × Annot)) :
    ∀ m, outerConfList env al m = true → mapFlatten env (objectify al m) = m := by
  induction al with
  | nil =>
      intro m h
      cases m with
      | nil => rfl
      | cons k v mrest => simp [outerConfList] at h
  | cons p arest ih =>
      intro m h
      obtain ⟨k, a⟩ := p
      cases m with
      | nil => simp [outerConfList] at h
      | cons k2 v mrest =>
          simp only [outerConfList, Bool.and_eq_true, decide_eq_true_eq] at h
          obtain ⟨⟨⟨hk, _⟩, hent⟩, hrest⟩ := h
          simp only [objectify, mapFlatten]
          rw [flattenEntryVal_commit env a v hent, ih mrest hrest]

/-- C7: for a raw nested mapping conformant to a JsonVariant class whose
entries already carry their declared leaf types and whose class-typed fields
hold mappings conformant to all-leaf shape-aware classes (keys aligned with
the declarations, no choices or predicates, conversion not opted out),
construction succeeds and the `dict` projection reproduces the mapping
exactly. -/
theorem c7_roundtrip_amended (env : Env) (decl : ClassDecl) (m : ValMap)
    (hc : outerConf env decl.annots m = true) :
    ∃ spec2 st, jsonEffSpec decl.annots = .ok spec2 ∧
      jsonInit env decl m = .ok st ∧
      dictView env spec2 decl.defaults st = m := by
  have hc2 := (Bool.and_eq_true _ _).mp hc
  have hnd : (decl.annots.map Prod.fst).Nodup := of_decide_eq_true hc2.1
  have hlist : outerConfList env decl.annots m = true := hc2.2
  have hpl : ∀ p, p ∈ decl.annots → plainAnnot p.2 = true :=
    outerConfList_plain env decl.annots m hlist
  have hje : jsonEffSpec decl.annots = .ok (effSpec decl.annots) :=
    jsonEffSpec_plainList decl.annots hpl
  have hass : assignAll env (effSpec decl.annots) decl.defaults
      (some (defaultKeys (effSpec decl.annots) decl.defaults)) m ValMap.nil =
      .ok (objectify decl.annots m) :=
    assignAll_outer env decl.annots decl.defaults hnd decl.annots m ValMap.nil
      (fun _ hp => hp) hlist (fun _ _ => rfl) hnd
  have hkeysM : decl.annots.map Prod.fst = m.keyList :=
    outerConfList_keys env decl.annots m hlist
  have hkeysO : (objectify decl.annots m).keyList = m.keyList :=
    objectify_keys decl.annots m hkeysM
  have hreq : requiredMissing (effSpec decl.annots) decl.defaults
      (objectify decl.annots m) = [] := by
    apply requiredMissing_nil_of
    intro k2 hk2
    rw [effSpec_keys, hkeysM, ← hkeysO] at hk2
    unfold hasAttr
    rw [ValMap.hasKey_of_mem_keyList _ k2 hk2]
    rfl
  refine ⟨effSpec decl.annots, objectify decl.annots m, hje, ?_, ?_⟩
  · unfold jsonInit
    rw [hje]
    show baseInit env (effSpec decl.annots) decl.defaults m =
      .ok (objectify decl.annots m)
    unfold baseInit
    rw [hass]
    show (match requiredMissing (effSpec decl.annots) decl.defaults
              (objectify decl.annots m) with
          | [] => (Except.ok (objectify decl.annots m) : Except Err ValMap)
          | k :: ks => Except.error (Err.missingRequired (k :: ks)))
        = Except.ok (objectify decl.annots m)
    rw [hreq]
  · unfold dictView
    rw [attrsView_aligned (effSpec decl.annots) decl.defaults (objectify decl.annots m)
      (by rw [effSpec_keys, hkeysM, hkeysO]) (by rw [effSpec_keys]; exact hnd)]
    exact mapFlatten_objectify env decl.annots m hlist

/-- An all-leaf shape-aware inner class, as declared for the round-trip
scenario: one bare int field. -/
def envC7 : Env :=
  [("InnerC7", ClassDecl.mk [("a", Annot.bare [Ty.tInt])] [])]

/-- An outer JsonVariant class: a bare str leaf field and a nested field
whose declared type is the shape-aware inner class. -/
def declC7 : ClassDecl :=
  ClassDecl.mk [("x", Annot.bare [Ty.tStr]),
    ("child", Annot.bare [Ty.tClass "InnerC7"])] []

/-- A raw nested mapping whose every nested field names a shape-aware type,
but whose leaf entry has an int where the declaration says str. -/
def mC7 : ValMap :=
  ValMap.cons "x" (Val.vInt 5)
    (ValMap.cons "child"
      (Val.vDict (ValMap.cons "a" (Val.vInt 3) ValMap.nil)) ValMap.nil)

/-- The value store the construction from `mC7` actually produces: the leaf
was coerced to the string "5". -/
def stC7 : ValMap :=
  ValMap.cons "x" (Val.vStr "5")
    (ValMap.cons "child"
      (Val.vObj "InnerC7" (ValMap.cons "a" (Val.vInt 3) ValMap.nil)) ValMap.nil)

/-- C7 counterexample: a raw mapping whose every nested (class-typed) field
is shape-aware constructs successfully, yet the `dict` projection differs
from the input, because the JsonVariant defaulting pass also coerces leaf
fields (here `int 5` into `str "5"`); the unqualified round-trip law is
false. -/
theorem c7_roundtrip_counterexample :
    jsonEffSpec declC7.annots = .ok (effSpec declC7.annots) ∧
    jsonInit envC7 declC7 mC7 = .ok stC7 ∧
    dictView envC7 (effSpec declC7.annots) declC7.defaults stC7 ≠ mC7 :=
  ⟨rfl, rfl, by decide⟩

/-- A raw nested mapping conformant to `declC7`: the leaf entry already
carries the declared str type. -/
def mC7w : ValMap :=
  ValMap.cons "x" (Val.vStr "hi")
    (ValMap.cons "child"
      (Val.vDict (ValMap.cons "a" (Val.vInt 3) ValMap.nil)) ValMap.nil)

/-- C7 witness: the amended round-trip law at a concrete conformant nested
input. -/
theorem c7_roundtrip_amended_witness :
    ∃ spec2 st, jsonEffSpec declC7.annots = .ok spec2 ∧
      jsonInit envC7 declC7 mC7w = .ok st ∧
      dictView envC7 spec2 declC7.defaults st = mC7w :=
  c7_roundtrip_amended envC7 declC7 mC7w (by decide)
